import Mathlib

/-!
Verification development for the core synchronization and mempool
subsystems of the WZP321/core-rs-albatross repository.

The development shallowly embeds three Rust modules:
  * `consensus/src/sync/sync_queue.rs` (`SyncQueue`),
  * `consensus-albatross/src/sync/history.rs` (`SyncCluster`, `HistorySync`),
  * `mempool/src/mempool.rs` (`MempoolState`, `Mempool`).

Rust `HashMap`s / `HashSet`s / `KeyedPriorityQueue`s are embedded as
association lists with the insertion discipline of the source (insert a
fresh key at the front, remove the unique matching entry, update in
place).  Machine integers (`u32`, `u64`, `usize`) are embedded as `Nat`;
none of the modelled operations relies on wrap-around, and the places
where the Rust code would panic (index out of bounds, `unwrap`,
`expect`, a failing `assert!`) are embedded as `Option.none`.
Floating-point fee-per-byte values, which the source orders with the
IEEE-754 total order, are embedded as `ℚ` (the transactions considered
here never produce NaN or infinities, on which the total order agrees
with the numeric order).
-/

/-! ### Association list helpers

These model the `HashMap` operations used by the source: lookup,
removal of the (unique) entry of a key, and in-place update of the
entry of a key. -/

def alookup {β : Type} (k : Nat) : List (Nat × β) → Option β
  | [] => none
  | (k', v) :: rest => if k' = k then some v else alookup k rest

def aerase {β : Type} (k : Nat) : List (Nat × β) → List (Nat × β)
  | [] => []
  | (k', v) :: rest => if k' = k then rest else (k', v) :: aerase k rest

def aupdate {β : Type} (k : Nat) (f : β → β) : List (Nat × β) → List (Nat × β)
  | [] => []
  | (k', v) :: rest => if k' = k then (k', f v) :: rest else (k', v) :: aupdate k f rest

@[simp] theorem alookup_nil {β : Type} (k : Nat) : alookup (β := β) k [] = none := rfl

@[simp] theorem alookup_cons {β : Type} (k k' : Nat) (v : β) (l : List (Nat × β)) :
    alookup k ((k', v) :: l) = if k' = k then some v else alookup k l := rfl

@[simp] theorem aerase_cons {β : Type} (k k' : Nat) (v : β) (l : List (Nat × β)) :
    aerase k ((k', v) :: l) = if k' = k then l else (k', v) :: aerase k l := rfl

@[simp] theorem aupdate_cons {β : Type} (k k' : Nat) (f : β → β) (v : β) (l : List (Nat × β)) :
    aupdate k f ((k', v) :: l) =
      if k' = k then (k', f v) :: l else (k', v) :: aupdate k f l := rfl

theorem alookup_eq_none_of_not_mem {β : Type} {k : Nat} {l : List (Nat × β)}
    (h : k ∉ l.map Prod.fst) : alookup k l = none := by
  induction l with
  | nil => rfl
  | cons p rest ih =>
    obtain ⟨k', v⟩ := p
    simp only [List.map_cons, List.mem_cons] at h
    push_neg at h
    have hk : k' ≠ k := Ne.symm h.1
    simp [alookup, hk, ih h.2]

theorem mem_map_fst_of_alookup_some {β : Type} {k : Nat} {l : List (Nat × β)} {v : β}
    (h : alookup k l = some v) : k ∈ l.map Prod.fst := by
  induction l with
  | nil => simp [alookup] at h
  | cons p rest ih =>
    obtain ⟨k', v'⟩ := p
    by_cases hk : k' = k
    · simp [hk]
    · simp only [alookup_cons, if_neg hk] at h
      simp [ih h]

theorem alookup_mem {β : Type} {k : Nat} {l : List (Nat × β)} {v : β}
    (h : alookup k l = some v) : (k, v) ∈ l := by
  induction l with
  | nil => simp [alookup] at h
  | cons p rest ih =>
    obtain ⟨k', v'⟩ := p
    simp only [alookup_cons] at h
    by_cases hk : k' = k
    · subst hk
      rw [if_pos rfl] at h
      obtain rfl := Option.some.inj h
      exact List.mem_cons_self _ _
    · rw [if_neg hk] at h
      exact List.mem_cons_of_mem _ (ih h)

theorem alookup_of_mem_nodup {β : Type} {k : Nat} {l : List (Nat × β)} {v : β}
    (hnd : (l.map Prod.fst).Nodup) (h : (k, v) ∈ l) : alookup k l = some v := by
  induction l with
  | nil => simp at h
  | cons p rest ih =>
    obtain ⟨k', v'⟩ := p
    simp only [List.map_cons, List.nodup_cons] at hnd
    rcases List.mem_cons.mp h with h1 | h2
    · injection h1 with hk hv
      subst hk
      subst hv
      simp [alookup]
    · have hk : k' ≠ k := by
        rintro rfl
        exact hnd.1 (List.mem_map.mpr ⟨(k', v), h2, rfl⟩)
      simp [alookup, hk, ih hnd.2 h2]

theorem aerase_of_alookup_none {β : Type} {k : Nat} {l : List (Nat × β)}
    (h : alookup k l = none) : aerase k l = l := by
  induction l with
  | nil => rfl
  | cons p rest ih =>
    obtain ⟨k', v⟩ := p
    by_cases hk : k' = k
    · simp [alookup, hk] at h
    · simp only [alookup_cons, if_neg hk] at h
      simp [aerase, hk, ih h]

theorem alookup_aerase_ne {β : Type} {k k' : Nat} (hne : k' ≠ k) (l : List (Nat × β)) :
    alookup k' (aerase k l) = alookup k' l := by
  induction l with
  | nil => rfl
  | cons p rest ih =>
    obtain ⟨k0, v⟩ := p
    by_cases hk : k0 = k
    · subst hk
      simp [aerase, alookup, Ne.symm hne]
    · by_cases hk' : k0 = k'
      · subst hk'
        simp [aerase, hk, alookup]
      · simp [aerase, hk, alookup, hk', ih]

theorem alookup_aerase_self {β : Type} (k : Nat) {l : List (Nat × β)}
    (hnd : (l.map Prod.fst).Nodup) : alookup k (aerase k l) = none := by
  induction l with
  | nil => rfl
  | cons p rest ih =>
    obtain ⟨k0, v⟩ := p
    simp only [List.map_cons, List.nodup_cons] at hnd
    by_cases hk : k0 = k
    · subst hk
      simp only [aerase_cons, if_pos rfl]
      exact alookup_eq_none_of_not_mem hnd.1
    · simp [aerase, hk, alookup, hk, ih hnd.2]

theorem map_fst_aerase_sublist {β : Type} (k : Nat) (l : List (Nat × β)) :
    ((aerase k l).map Prod.fst).Sublist (l.map Prod.fst) := by
  induction l with
  | nil => simp [aerase]
  | cons p rest ih =>
    obtain ⟨k0, v⟩ := p
    by_cases hk : k0 = k
    · simp only [aerase_cons, if_pos hk, List.map_cons]
      exact List.sublist_cons_of_sublist _ (List.Sublist.refl _)
    · simp only [aerase_cons, if_neg hk, List.map_cons]
      exact List.Sublist.cons₂ _ ih

theorem nodup_map_fst_aerase {β : Type} {k : Nat} {l : List (Nat × β)}
    (hnd : (l.map Prod.fst).Nodup) : ((aerase k l).map Prod.fst).Nodup :=
  (map_fst_aerase_sublist k l).nodup hnd

theorem mem_aerase_of_mem {β : Type} {k : Nat} {p : Nat × β} {l : List (Nat × β)}
    (hp : p ∈ aerase k l) : p ∈ l := by
  induction l with
  | nil => simp [aerase] at hp
  | cons q rest ih =>
    obtain ⟨k0, v⟩ := q
    by_cases hk : k0 = k
    · simp only [aerase_cons, if_pos hk] at hp
      exact List.mem_cons_of_mem _ hp
    · simp only [aerase_cons, if_neg hk, List.mem_cons] at hp
      rcases hp with h | h
      · simp [h]
      · exact List.mem_cons_of_mem _ (ih h)

theorem aupdate_of_alookup_none {β : Type} {k : Nat} (f : β → β) {l : List (Nat × β)}
    (h : alookup k l = none) : aupdate k f l = l := by
  induction l with
  | nil => rfl
  | cons p rest ih =>
    obtain ⟨k', v⟩ := p
    by_cases hk : k' = k
    · simp [alookup, hk] at h
    · simp only [alookup_cons, if_neg hk] at h
      simp [aupdate, hk, ih h]

theorem alookup_aupdate_self {β : Type} {k : Nat} (f : β → β) {l : List (Nat × β)} {v : β}
    (h : alookup k l = some v) : alookup k (aupdate k f l) = some (f v) := by
  induction l with
  | nil => simp [alookup] at h
  | cons p rest ih =>
    obtain ⟨k', v'⟩ := p
    by_cases hk : k' = k
    · subst hk
      rw [alookup_cons, if_pos rfl] at h
      obtain rfl := Option.some.inj h
      simp [aupdate, alookup]
    · rw [alookup_cons, if_neg hk] at h
      simp [aupdate, hk, alookup, ih h]

theorem alookup_aupdate_ne {β : Type} {k k' : Nat} (hne : k' ≠ k) (f : β → β)
    (l : List (Nat × β)) : alookup k' (aupdate k f l) = alookup k' l := by
  induction l with
  | nil => rfl
  | cons p rest ih =>
    obtain ⟨k0, v⟩ := p
    by_cases hk : k0 = k
    · subst hk
      simp [aupdate, alookup, Ne.symm hne]
    · by_cases hk' : k0 = k'
      · subst hk'
        simp [aupdate, hk, alookup]
      · simp [aupdate, hk, alookup, hk', ih]

theorem aupdate_aupdate_restore {β : Type} {k : Nat} {l : List (Nat × β)} {v : β}
    (g : β → β) (h : alookup k l = some v) :
    aupdate k (fun _ => v) (aupdate k g l) = l := by
  induction l with
  | nil => rfl
  | cons p rest ih =>
    obtain ⟨k', v'⟩ := p
    by_cases hk : k' = k
    · subst hk
      rw [alookup_cons, if_pos rfl] at h
      obtain rfl := Option.some.inj h
      simp [aupdate]
    · rw [alookup_cons, if_neg hk] at h
      simp [aupdate, hk, ih h]

theorem map_fst_aupdate {β : Type} (k : Nat) (f : β → β) (l : List (Nat × β)) :
    (aupdate k f l).map Prod.fst = l.map Prod.fst := by
  induction l with
  | nil => rfl
  | cons p rest ih =>
    obtain ⟨k', v⟩ := p
    by_cases hk : k' = k <;> simp [aupdate, hk, ih]

theorem mem_aupdate {β : Type} {k : Nat} {f : β → β} {p : Nat × β} {l : List (Nat × β)}
    (hp : p ∈ aupdate k f l) :
    p ∈ l ∨ (p.1 = k ∧ ∃ v, alookup k l = some v ∧ p.2 = f v) := by
  induction l with
  | nil => simp [aupdate] at hp
  | cons q rest ih =>
    obtain ⟨k0, v⟩ := q
    by_cases hk : k0 = k
    · subst hk
      rw [aupdate_cons, if_pos rfl] at hp
      rcases List.mem_cons.mp hp with h1 | h2
      · subst h1
        exact Or.inr ⟨rfl, v, by simp [alookup], rfl⟩
      · exact Or.inl (List.mem_cons_of_mem _ h2)
    · rw [aupdate_cons, if_neg hk] at hp
      rcases List.mem_cons.mp hp with h1 | h2
      · exact Or.inl (h1 ▸ List.mem_cons_self _ _)
      · rcases ih h2 with h' | h'
        · exact Or.inl (List.mem_cons_of_mem _ h')
        · refine Or.inr ⟨h'.1, ?_⟩
          obtain ⟨w, hw, hpw⟩ := h'.2
          exact ⟨w, by simp [alookup, hk, hw], hpw⟩

/-! ### SyncQueue (`consensus/src/sync/sync_queue.rs`)

The embedding follows `SyncQueue::poll_next`, `try_push_futures` and
`get_next_peer`.  Ids and outputs are `Nat`.  Peers are modelled by
their count (`peers : Nat`): every peer is live, so
`get_next_peer start` returns peer `start % peers` whenever the peer
set is nonempty (`Weak::upgrade` never fails in the runs considered
here, matching the scenarios of the specification).  The environment
is a function `resp : Nat → Nat → Option Nat` giving the outcome of
the request for an id at a given `num_tries` (`None` = failed
request).  The nondeterministic completion order of the
`FuturesUnordered` set is resolved by an explicit schedule: each
element of the schedule either picks the pending future that
completes next (`some k`, an index into the pending list) or declares
that no future is ready (`none`, the `Poll::Pending` case). -/

structure SQRequest where
  id : Nat
  index : Nat
  peer : Nat
  numTries : Nat
deriving DecidableEq, Repr

structure SQState where
  peers : Nat
  desired : Nat
  idsToRequest : List Nat
  pending : List SQRequest
  queued : List (Nat × Nat)
  nextIncoming : Nat
  nextOutgoing : Nat
  currentPeer : Nat
deriving DecidableEq, Repr

/-- An emitted stream item: `Ok(out)` or `Err(id)`.  The second `Nat`
is the ghost request index of the emission (the enqueue position of
the id), recorded by the model for stating ordering properties; the
Rust stream itself only yields the `Ok`/`Err` value. -/
inductive SQEmission where
  | ok (out : Nat) (index : Nat)
  | err (id : Nat) (index : Nat)
deriving DecidableEq, Repr

inductive SQPollOut where
  | item (e : SQEmission)
  | done
  | pend
deriving DecidableEq, Repr

/-- The loop body of `try_push_futures`: issue `n` requests, assigning
each to the peer at `current_peer_index` and advancing the index
round-robin.  With every peer live, `get_next_peer` fails only when
the peer set is empty, in which case the loop aborts. -/
def sqPushLoop : Nat → SQState → SQState
  | 0, s => s
  | n + 1, s =>
    if s.peers = 0 then s
    else
      match s.idsToRequest with
      | [] => s
      | id :: rest =>
          sqPushLoop n
            { s with
              idsToRequest := rest
              pending := s.pending ++ [⟨id, s.nextIncoming, s.currentPeer, 1⟩]
              nextIncoming := s.nextIncoming + 1
              currentPeer := (s.currentPeer + 1) % s.peers }

/-- `SyncQueue::try_push_futures`: top pending work up to
`desired_pending_size` minus in-flight futures minus queued outputs
(`saturating_sub` is `Nat` subtraction). -/
def tryPushFutures (s : SQState) : SQState :=
  sqPushLoop (min s.idsToRequest.length (s.desired - (s.pending.length + s.queued.length))) s

/-- Entry of `queued_outputs` with the minimal index (the peek of the
reversed-order `BinaryHeap`). -/
def sqPeekMin : List (Nat × Nat) → Option (Nat × Nat)
  | [] => none
  | (i, o) :: rest =>
    match sqPeekMin rest with
    | none => some (i, o)
    | some (j, p) => if i ≤ j then some (i, o) else some (j, p)

/-- Remove the first entry with the given index from `queued_outputs`. -/
def sqPopIndex (i : Nat) : List (Nat × Nat) → List (Nat × Nat)
  | [] => []
  | (j, o) :: rest => if j = i then rest else (j, o) :: sqPopIndex i rest

inductive SQLoopStep where
  | emit (e : SQEmission) (s : SQState)
  | cont (s : SQState)

/-- The match on a completed `OrderWrapper` future inside
`SyncQueue::poll_next` (the body of the `loop`), for a completed
request `r` whose future has already been removed from
`pending_futures` (as polling a `FuturesUnordered` removes completed
futures).  On `Some(output)`: emit if the index is the next outgoing
one, otherwise park the output in `queued_outputs`.  On `None`: emit
`Err(id)` if every peer has been tried, otherwise re-request from peer
`(r.peer + 1) % peers` with `num_tries` bumped. -/
def sqProcess (resp : Nat → Nat → Option Nat) (s : SQState) (r : SQRequest) : SQLoopStep :=
  match resp r.id r.numTries with
  | some output =>
    if r.index = s.nextOutgoing then
      .emit (.ok output r.index) { s with nextOutgoing := s.nextOutgoing + 1 }
    else
      .cont { s with queued := (r.index, output) :: s.queued }
  | none =>
    if s.peers ≤ r.numTries then
      .emit (.err r.id r.index) s
    else
      .cont { s with pending := s.pending ++
        [⟨r.id, r.index, (r.peer + 1) % s.peers, r.numTries + 1⟩] }

/-- The `loop` of `SyncQueue::poll_next`, driven by the schedule.
When `pending_futures` is empty its poll yields `Ready(None)`: the
stream terminates if no ids or no peers remain, otherwise new futures
are pushed and the poll is `Pending`.  Otherwise the schedule decides
which pending future completes (an exhausted or `none` schedule entry
is the `Poll::Pending` case propagated by `ready!`). -/
def sqLoop (resp : Nat → Nat → Option Nat) : List (Option Nat) → SQState → SQPollOut × SQState
  | [], s =>
    if s.pending.isEmpty then
      if s.idsToRequest.isEmpty || s.peers == 0 then (.done, s)
      else (.pend, tryPushFutures s)
    else (.pend, s)
  | c :: fuel', s =>
    if s.pending.isEmpty then
      if s.idsToRequest.isEmpty || s.peers == 0 then (.done, s)
      else (.pend, tryPushFutures s)
    else
      match c with
      | none => (.pend, s)
      | some k =>
        if h : k < s.pending.length then
          let r := s.pending.get ⟨k, h⟩
          let s1 := { s with pending := s.pending.eraseIdx k }
          match sqProcess resp s1 r with
          | .emit e s2 => (.item e, s2)
          | .cont s2 => sqLoop resp fuel' s2
        else (.pend, s)

/-- `SyncQueue::poll_next`: push new futures, deliver a parked output
whose index equals `next_outgoing_index` if present, otherwise run the
completion loop. -/
def sqPollNext (resp : Nat → Nat → Option Nat) (fuel : List (Option Nat)) (s : SQState) :
    SQPollOut × SQState :=
  let s := tryPushFutures s
  match sqPeekMin s.queued with
  | some (i, o) =>
    if i = s.nextOutgoing then
      (.item (.ok o i), { s with queued := sqPopIndex i s.queued, nextOutgoing := i + 1 })
    else sqLoop resp fuel s
  | none => sqLoop resp fuel s

/-- Drive the stream: one schedule per poll; stop polling once the
stream has terminated (`Ready(None)`).  Returns the emitted items (with
ghost indices), the final state, and whether the stream terminated. -/
def sqRun (resp : Nat → Nat → Option Nat) (s : SQState) :
    List (List (Option Nat)) → List SQEmission × SQState × Bool
  | [] => ([], s, false)
  | fuel :: rest =>
    match sqPollNext resp fuel s with
    | (.done, s') => ([], s', true)
    | (.item e, s') =>
      let r := sqRun resp s' rest
      (e :: r.1, r.2)
    | (.pend, s') => sqRun resp s' rest

/-- `SyncQueue::new`. -/
def sqInit (ids : List Nat) (peers : Nat) (desired : Nat) : SQState :=
  { peers := peers, desired := desired, idsToRequest := ids, pending := [],
    queued := [], nextIncoming := 0, nextOutgoing := 0, currentPeer := 0 }

/-- Ghost indices of the emitted successes, in emission order. -/
def sqOkIndices : List SQEmission → List Nat
  | [] => []
  | .ok _ i :: rest => i :: sqOkIndices rest
  | .err _ _ :: rest => sqOkIndices rest

/-- Value part of an emission: `Sum.inl out` for `Ok`, `Sum.inr id`
for `Err` (what the Rust stream actually yields). -/
def SQEmission.val : SQEmission → Sum Nat Nat
  | .ok o _ => .inl o
  | .err i _ => .inr i

/-! ### SyncQueue lemmas: the index of every emitted success equals
`next_outgoing_index` at the moment of emission, which increments by
one exactly on success emissions. -/

theorem sqPushLoop_nextOutgoing (n : Nat) (s : SQState) :
    (sqPushLoop n s).nextOutgoing = s.nextOutgoing := by
  induction n generalizing s with
  | zero => rfl
  | succ n ih =>
    unfold sqPushLoop
    split
    · rfl
    · split
      · rfl
      · exact ih _

theorem tryPushFutures_nextOutgoing (s : SQState) :
    (tryPushFutures s).nextOutgoing = s.nextOutgoing :=
  sqPushLoop_nextOutgoing _ s

/-- Specification of how one poll result relates to the
`next_outgoing_index` of the state it started from: a success carries
that exact index and bumps it by one; anything else leaves it alone. -/
def nextOutSpec (n : Nat) : SQPollOut × SQState → Prop
  | (.item (.ok _ i), s') => i = n ∧ s'.nextOutgoing = n + 1
  | (_, s') => s'.nextOutgoing = n

theorem sqProcess_emit_ok (resp : Nat → Nat → Option Nat) (s : SQState) (r : SQRequest)
    {o i : Nat} {s' : SQState} (h : sqProcess resp s r = .emit (.ok o i) s') :
    i = s.nextOutgoing ∧ s'.nextOutgoing = s.nextOutgoing + 1 := by
  rcases hr : resp r.id r.numTries with _ | output
  · simp only [sqProcess, hr] at h
    split at h
    · injection h with he hs
      exact absurd he (by simp)
    · exact SQLoopStep.noConfusion h
  · simp only [sqProcess, hr] at h
    split at h
    · rename_i hidx
      injection h with he hs
      injection he with ho hi
      refine ⟨hi.symm.trans hidx, ?_⟩
      rw [← hs]
    · exact SQLoopStep.noConfusion h

theorem sqProcess_emit_err (resp : Nat → Nat → Option Nat) (s : SQState) (r : SQRequest)
    {id i : Nat} {s' : SQState} (h : sqProcess resp s r = .emit (.err id i) s') :
    s'.nextOutgoing = s.nextOutgoing := by
  rcases hr : resp r.id r.numTries with _ | output
  · simp only [sqProcess, hr] at h
    split at h
    · injection h with he hs
      rw [← hs]
    · exact SQLoopStep.noConfusion h
  · simp only [sqProcess, hr] at h
    split at h
    · injection h with he hs
      exact absurd he (by simp)
    · exact SQLoopStep.noConfusion h

theorem sqProcess_cont (resp : Nat → Nat → Option Nat) (s : SQState) (r : SQRequest)
    {s' : SQState} (h : sqProcess resp s r = .cont s') :
    s'.nextOutgoing = s.nextOutgoing := by
  rcases hr : resp r.id r.numTries with _ | output
  · simp only [sqProcess, hr] at h
    split at h
    · exact SQLoopStep.noConfusion h
    · injection h with h1
      rw [← h1]
  · simp only [sqProcess, hr] at h
    split at h
    · exact SQLoopStep.noConfusion h
    · injection h with h1
      rw [← h1]

theorem sqLoop_nextOut (resp : Nat → Nat → Option Nat) (fuel : List (Option Nat))
    (s : SQState) : nextOutSpec s.nextOutgoing (sqLoop resp fuel s) := by
  induction fuel generalizing s with
  | nil =>
    unfold sqLoop
    split
    · split
      · exact rfl
      · exact tryPushFutures_nextOutgoing s
    · exact rfl
  | cons c fuel' ih =>
    unfold sqLoop
    split
    · split
      · exact rfl
      · exact tryPushFutures_nextOutgoing s
    · match c with
      | none => exact rfl
      | some k =>
        simp only
        split
        · rename_i hk
          rcases hp : sqProcess resp { s with pending := s.pending.eraseIdx k }
              (s.pending.get ⟨k, hk⟩) with ⟨e, s2⟩ | s2
          · simp only [hp]
            match e with
            | .ok o i =>
              have := sqProcess_emit_ok resp _ _ hp
              exact this
            | .err id i =>
              have := sqProcess_emit_err resp _ _ hp
              exact this
          · simp only [hp]
            have h2 := sqProcess_cont resp _ _ hp
            have := ih s2
            rw [h2] at this
            exact this
        · exact rfl

theorem sqPollNext_nextOut (resp : Nat → Nat → Option Nat) (fuel : List (Option Nat))
    (s : SQState) : nextOutSpec s.nextOutgoing (sqPollNext resp fuel s) := by
  unfold sqPollNext
  have hpush := tryPushFutures_nextOutgoing s
  rcases hq : sqPeekMin (tryPushFutures s).queued with _ | ⟨i, o⟩
  · simp only [hq]
    have := sqLoop_nextOut resp fuel (tryPushFutures s)
    rw [hpush] at this
    exact this
  · simp only [hq]
    split
    · rename_i hi
      refine ⟨by rw [hi, hpush], by simp [hi, hpush]⟩
    · have := sqLoop_nextOut resp fuel (tryPushFutures s)
      rw [hpush] at this
      exact this

theorem sqRun_okIndices (resp : Nat → Nat → Option Nat) (polls : List (List (Option Nat)))
    (s : SQState) :
    sqOkIndices (sqRun resp s polls).1 =
      List.range' s.nextOutgoing (sqOkIndices (sqRun resp s polls).1).length := by
  induction polls generalizing s with
  | nil => rfl
  | cons fuel rest ih =>
    have hspec := sqPollNext_nextOut resp fuel s
    rcases hp : sqPollNext resp fuel s with ⟨out, s'⟩
    rw [hp] at hspec
    match out with
    | .done =>
      simp only [sqRun, hp]
      rfl
    | .pend =>
      simp only [sqRun, hp]
      have := ih s'
      rw [show s'.nextOutgoing = s.nextOutgoing from hspec] at this
      exact this
    | .item (.ok o i) =>
      obtain ⟨hi, hnext⟩ := hspec
      simp only [sqRun, hp, sqOkIndices]
      have := ih s'
      rw [hnext] at this
      rw [this, hi]
      simp [List.range'_succ]
    | .item (.err id i) =>
      simp only [sqRun, hp, sqOkIndices]
      have := ih s'
      rw [show s'.nextOutgoing = s.nextOutgoing from hspec] at this
      exact this

/-! ### Scenario S2 of the specification: ids `[A, B, C]` (encoded
`[0, 1, 2]`), peers `[p1, p2]` (two live peers), window 3, and every
peer's request for `B` returns `None`; requests for `A` and `C`
succeed, echoing the id. -/

def respS2 : Nat → Nat → Option Nat := fun id _ => if id = 1 then none else some id

/-- A first-in-first-out completion schedule: at every await the
oldest pending future completes (four polls, each allowing up to four
completions, which is more than the run needs). -/
def fifoPolls : List (List (Option Nat)) :=
  [[some 0, some 0, some 0, some 0], [some 0, some 0, some 0, some 0],
   [some 0, some 0, some 0, some 0], [some 0, some 0, some 0, some 0]]

def runS2 : List SQEmission × SQState × Bool := sqRun respS2 (sqInit [0, 1, 2] 2 3) fifoPolls

/-- The emission sequence claim C1 expects for scenario S2. -/
def claimedS2 : List (Sum Nat Nat) := [Sum.inl 0, Sum.inr 1, Sum.inl 2]

/-- C1, counterexample.  In scenario S2 the queue emits `Ok(A)` and
`Err(B)` and then terminates: the claimed third emission `Ok(C)` never
appears.  `C`'s successful response is parked in `queued_outputs`
under index 2, but `next_outgoing_index` stalls at 1 because the
`Err` path of `poll_next` (sync_queue.rs:300-311) does not advance it,
so the parked output can never be released and the id `C` produces no
emission at all.  This refutes both the general sentence (every
enqueued id produces exactly one emission) and the expected sequence
`Ok(A), Err(B), Ok(C)`. -/
theorem syncQueue_s2_emission_counterexample :
    runS2.1.map SQEmission.val = [Sum.inl 0, Sum.inr 1] ∧
    runS2.2.2 = true ∧
    runS2.1.map SQEmission.val ≠ claimedS2 := by
  refine ⟨by decide, by decide, by decide⟩

/-- C1, amended.  In scenario S2 the emitted sequence is exactly
`Ok(A), Err(B)`, after which the stream terminates; the successful
response for `C` stays parked in `queued_outputs` (index 2) and is
never emitted, because an `Err` emission does not advance
`next_outgoing_index`. -/
theorem syncQueue_s2_emission :
    runS2.1.map SQEmission.val = [Sum.inl 0, Sum.inr 1] ∧
    runS2.2.2 = true ∧
    runS2.2.1.queued = [(2, 2)] ∧
    runS2.2.1.nextOutgoing = 1 := by
  refine ⟨by decide, by decide, by decide, by decide⟩

/-! ### Claim C2: emission ordering. -/

/-- The error-ordering property claimed by C2: an `Err` whose request
index is `i` appears only after a success has been emitted for every
index smaller than `i`. -/
def errAfterSmallerOks (es : List SQEmission) : Prop :=
  ∀ (k i id : Nat), es[k]? = some (SQEmission.err id i) →
    ∀ j < i, ∃ m : Nat, m < k ∧ ∃ o : Nat, es[m]? = some (SQEmission.ok o j)

/-- Run refuting the error-ordering half of C2: ids `[0, 1]`, one
peer, window 2; the request for id 1 always fails and its future
completes before id 0's, so `Err(1)` (request index 1) is emitted
before the success `Ok(0)` (request index 0). -/
def runErrFirst : List SQEmission × SQState × Bool :=
  sqRun respS2 (sqInit [0, 1] 1 2) [[some 1], [some 0], [some 0]]

/-- C2, counterexample.  The run emits `Err` for the id at request
index 1 first and the success with request index 0 second, so the
claimed property "an Err for id i is emitted only after all successes
whose index is smaller than i's index" fails on the code: `poll_next`
returns `Err` immediately when retries are exhausted
(sync_queue.rs:300-304), without waiting for earlier indices. -/
theorem syncQueue_err_order_counterexample :
    runErrFirst.1 = [.err 1 1, .ok 0 0] ∧ ¬ errAfterSmallerOks runErrFirst.1 := by
  refine ⟨by decide, ?_⟩
  intro hco
  have h0 : runErrFirst.1[0]? = some (SQEmission.err 1 1) := by decide
  obtain ⟨m, hm, o, _⟩ := hco 0 1 1 h0 0 (by decide)
  exact absurd hm (by omega)

/-- C2, amended (and the success half of the original claim, proved
for every environment, every schedule and every initial id list): the
ghost indices of the emitted successes of any `SyncQueue` run form
exactly the list `0, 1, 2, …`, i.e. successes are emitted with
strictly increasing request index starting at 0, in enqueue order.
The error-ordering half of the original claim is dropped (see the
counterexample). -/
theorem syncQueue_ok_indices_increasing (resp : Nat → Nat → Option Nat)
    (ids : List Nat) (peers desired : Nat) (polls : List (List (Option Nat))) :
    sqOkIndices (sqRun resp (sqInit ids peers desired) polls).1 =
      List.range (sqOkIndices (sqRun resp (sqInit ids peers desired) polls).1).length := by
  have h := sqRun_okIndices resp polls (sqInit ids peers desired)
  rw [List.range_eq_range']
  exact h

/-! ### Claim C6: retry policy on failed requests. -/

/-- C6.  When a completed request resolves to `None`
(sync_queue.rs:300-330): if `num_tries` has not yet reached the peer
count, the id is re-requested from the peer at index
`(peer_index + 1) mod peers.len()` with `num_tries` incremented by
one and nothing is emitted; if `num_tries ≥ peers.len()` the queue
emits `Err(id)`; and an `Err` is emitted only in that case — so with
every peer live, `Err(id)` is surfaced exactly when `num_tries` has
reached the peer count. -/
theorem syncQueue_retry_policy (resp : Nat → Nat → Option Nat) (s : SQState)
    (r : SQRequest) (hfail : resp r.id r.numTries = none) :
    (r.numTries < s.peers →
      sqProcess resp s r = .cont { s with pending := s.pending ++
        [⟨r.id, r.index, (r.peer + 1) % s.peers, r.numTries + 1⟩] }) ∧
    (s.peers ≤ r.numTries → sqProcess resp s r = .emit (.err r.id r.index) s) ∧
    (∀ e s', sqProcess resp s r = .emit e s' → s.peers ≤ r.numTries) := by
  refine ⟨?_, ?_, ?_⟩
  · intro hlt
    simp [sqProcess, hfail, Nat.not_le.mpr hlt]
  · intro hge
    simp [sqProcess, hfail, hge]
  · intro e s' hemit
    by_contra hnot
    rw [Nat.not_le] at hnot
    simp [sqProcess, hfail, Nat.not_le.mpr hnot] at hemit

/-- Witness for C6 at a concrete input: a request for id 5 on its
first try among two peers, whose response is `None`, is re-issued to
peer `(0 + 1) % 2 = 1` with `num_tries = 2`. -/
theorem syncQueue_retry_policy_witness :
    sqProcess (fun _ _ => none) (sqInit [] 2 3) ⟨5, 0, 0, 1⟩ =
      .cont { sqInit [] 2 3 with pending := [⟨5, 0, 1, 2⟩] } :=
  (syncQueue_retry_policy (fun _ _ => none) (sqInit [] 2 3) ⟨5, 0, 0, 1⟩ rfl).1 (by decide)

/-! ### SyncCluster (`consensus-albatross/src/sync/history.rs`)

`MacroBlock` is represented by its block number, `ExtendedTransaction`
by a `Nat`.  The two `SyncQueue`s of a cluster are abstracted by their
yield sequences: each poll of the environment supplies the list of
items the epoch queue and the history queue yield during that poll
(success items only; a queue-level `Err` aborts the cluster and is
outside the claims considered here).  `epoch_queue.is_empty()` is
tracked by the count of epoch ids the epoch queue has not yielded
yet. -/

structure PendingEpoch where
  blockNumber : Nat
  historyLen : Nat
  history : List Nat
deriving DecidableEq, Repr

/-- Modelled from the spec: `policy::epoch_at` lives in the external
`primitives::policy` crate, which is not among the sources; section 3
of the specification defines `epoch_number = block_number / EPOCH_LENGTH`.
The epoch length is a parameter. -/
def epochAt (epochLength blockNumber : Nat) : Nat := blockNumber / epochLength

/-- `PendingEpoch::epoch_number`. -/
def PendingEpoch.epochNumber (epochLength : Nat) (pe : PendingEpoch) : Nat :=
  epochAt epochLength pe.blockNumber

/-- `PendingEpoch::is_complete`. -/
def PendingEpoch.isComplete (pe : PendingEpoch) : Bool :=
  pe.historyLen == pe.history.length

/-- The `Epoch` response message (`messages::Epoch`): a macro block
plus the total history length. -/
structure EpochInfo where
  blockNumber : Nat
  historyLen : Nat
deriving DecidableEq, Repr

structure ClusterState where
  epochIds : List Nat
  epochOffset : Nat
  epochQueueRemaining : Nat
  historyIds : List (Nat × Nat)
  pendingEpochs : List PendingEpoch
deriving DecidableEq, Repr

/-- `SyncCluster::new` (the fields the claims are about). -/
def clusterInit (ids : List Nat) (offset : Nat) : ClusterState :=
  { epochIds := ids, epochOffset := offset, epochQueueRemaining := ids.length,
    historyIds := [], pendingEpochs := [] }

/-- `SyncCluster::on_epoch_received` (history.rs:94-110): enqueue
`(block_number, i)` for `i < history_len / CHUNK_SIZE` on the history
queue (note: the *block number*, not the epoch number) and push a
`PendingEpoch` with empty history.  `CHUNK_SIZE` is a parameter
(modelled from the spec: `history_store::CHUNK_SIZE` is a compile-time
constant of the external history store). -/
def onEpochReceived (chunkSize : Nat) (s : ClusterState) (e : EpochInfo) : ClusterState :=
  { s with
    historyIds := s.historyIds ++ (List.range (e.historyLen / chunkSize)).map (fun i => (e.blockNumber, i)),
    pendingEpochs := s.pendingEpochs ++ [⟨e.blockNumber, e.historyLen, []⟩] }

def listUpdate {α : Type} (f : α → α) (i : Nat) : List α → List α
  | [] => []
  | x :: xs =>
    match i with
    | 0 => f x :: xs
    | n + 1 => x :: listUpdate f n xs

/-- Append a chunk's transactions to a pending epoch's history
(`epoch.history.append(&mut chunk)`). -/
def appendChunk (txs : List Nat) (pe : PendingEpoch) : PendingEpoch :=
  { pe with history := pe.history ++ txs }

/-- `SyncCluster::on_history_chunk_received` (history.rs:112-122):
index the pending epoch as `epoch_number - pending_epochs[0].epoch_number()`
and append the chunk's transactions.  `none` models the panics of the
source: indexing an empty `pending_epochs`, `u32` subtraction
underflow / index out of bounds, and `history_chunk.chunk.expect(..)`
on a missing chunk. -/
def onHistoryChunkReceived (epochLength : Nat) (s : ClusterState) (epochNumber : Nat)
    (chunk : Option (List Nat)) : Option ClusterState :=
  match s.pendingEpochs with
  | [] => none
  | pe0 :: _ =>
    if epochNumber < epochAt epochLength pe0.blockNumber then none
    else if epochNumber - epochAt epochLength pe0.blockNumber < s.pendingEpochs.length then
      match chunk with
      | none => none
      | some txs =>
        some { s with pendingEpochs := listUpdate (appendChunk txs) (epochNumber - epochAt epochLength pe0.blockNumber) s.pendingEpochs }
    else none

inductive ClusterPollOut where
  | item (blockNumber : Nat) (history : List Nat)
  | done
  | pend
deriving DecidableEq, Repr

/-- The first `while` loop of `SyncCluster::poll_next`
(history.rs:146-151): drain every epoch the epoch queue yields this
poll, decrementing the count of epoch ids not yet yielded. -/
def consumeEpochs (chunkSize : Nat) (s : ClusterState) : List EpochInfo → ClusterState
  | [] => s
  | e :: rest =>
      consumeEpochs chunkSize
        { onEpochReceived chunkSize s e with epochQueueRemaining := s.epochQueueRemaining - 1 } rest

/-- The second `while` loop of `SyncCluster::poll_next`
(history.rs:154-171) followed by the termination check
(history.rs:174-178): process yielded history chunks one by one; if
the head of `pending_epochs` is complete after a chunk, pop and emit
it, leaving the remaining yielded chunks queued; with no more chunks,
terminate if the epoch queue and `pending_epochs` are both empty,
otherwise return `Pending`. -/
def consumeChunks (epochLength : Nat) (s : ClusterState) :
    List (Nat × Option (List Nat)) →
      Option (ClusterPollOut × ClusterState × List (Nat × Option (List Nat)))
  | [] =>
    if s.epochQueueRemaining = 0 && s.pendingEpochs.isEmpty then some (.done, s, [])
    else some (.pend, s, [])
  | (en, ch) :: rest =>
    match onHistoryChunkReceived epochLength s en ch with
    | none => none
    | some s1 =>
      match s1.pendingEpochs with
      | [] => consumeChunks epochLength s1 rest
      | pe0 :: tail =>
        if pe0.isComplete then
          some (.item pe0.blockNumber pe0.history, { s1 with pendingEpochs := tail }, rest)
        else consumeChunks epochLength s1 rest

/-- Driver state for a cluster run: the cluster plus the queue items
yielded but not yet processed (a chunk yielded while an emission cut
the processing loop short stays queued for the next poll, and epochs
arriving while `pending_epochs` is full stay queued). -/
structure ClusterRun where
  cs : ClusterState
  epochBuf : List EpochInfo
  chunkBuf : List (Nat × Option (List Nat))
deriving DecidableEq, Repr

def clusterRunInit (ids : List Nat) (offset : Nat) : ClusterRun :=
  ⟨clusterInit ids offset, [], []⟩

/-- `SyncCluster::poll_next` driven over a list of polls, each
supplying the epochs and chunks newly yielded by the two queues.
Returns the emitted epochs (block number and history), the final
state, whether the stream terminated, and whether the code panicked. -/
def runCluster (epochLength chunkSize : Nat) (r : ClusterRun) :
    List (List EpochInfo × List (Nat × Option (List Nat))) →
      List (Nat × List Nat) × ClusterRun × Bool × Bool
  | [] => ([], r, false, false)
  | (eArr, cArr) :: rest =>
    let eb := r.epochBuf ++ eArr
    let cb := r.chunkBuf ++ cArr
    let canConsume := r.cs.pendingEpochs.length < 5
    let s1 := if canConsume then consumeEpochs chunkSize r.cs eb else r.cs
    let eb' := if canConsume then [] else eb
    match consumeChunks epochLength s1 cb with
    | none => ([], ⟨s1, eb', cb⟩, false, true)
    | some (.done, s2, cb') => ([], ⟨s2, eb', cb'⟩, true, false)
    | some (.pend, s2, cb') => runCluster epochLength chunkSize ⟨s2, eb', cb'⟩ rest
    | some (.item bn h, s2, cb') =>
      let t := runCluster epochLength chunkSize ⟨s2, eb', cb'⟩ rest
      ((bn, h) :: t.1, t.2)

/-! ### Claim C3: where a received history chunk is appended. -/

/-- The cluster state of a fresh cluster (offset 1, epoch id list
`[99]`) after receiving the epoch response for the election block at
block number 2 with `history_len = 1`, with `EPOCH_LENGTH = 2` and
`CHUNK_SIZE = 1`. -/
def s1C3 : ClusterState := onEpochReceived 1 (clusterInit [99] 1) ⟨2, 1⟩

/-- C3.  `on_epoch_received` enqueues the history-chunk id
`(block_number, 0) = (2, 0)` — keyed by *block number* — so the history
queue later yields the chunk as `(2, chunk)`.  The chunk belongs to
the single pending epoch (index 0, epoch number `epoch_at(2) = 1`),
and the claim's formula `e - pending_epochs[0].epoch_number()` with
the chunk's epoch number `e = 1` also gives index 0; but
`on_history_chunk_received` receives the block number 2 in place of an
epoch number and computes index `2 - 1 = 1`, which is out of bounds of
the one-element `pending_epochs` — the code panics instead of
appending the chunk to the epoch it belongs to. -/
theorem syncCluster_chunk_append_bug :
    s1C3.historyIds = [(2, 0)] ∧
    s1C3.pendingEpochs.length = 1 ∧
    epochAt 2 2 = 1 ∧
    onHistoryChunkReceived 2 s1C3 2 (some [42]) = none := by
  refine ⟨by decide, by decide, by decide, by decide⟩

/-! ### Claim C4: emission order of completed epochs. -/

/-- A run in which the only epoch has `history_len = 0`: its
`PendingEpoch` is complete the moment it is pushed, with no history
chunks to wait for. -/
def runC4 : List (Nat × List Nat) × ClusterRun × Bool × Bool :=
  runCluster 2 1 (clusterRunInit [99] 1) [([⟨2, 0⟩], [])]

/-- A run against a misbehaving peer: the cluster sits at
`epoch_offset = 10` with `EPOCH_LENGTH = 1` (so block number = epoch
number), but the epoch queue yields the macro blocks at block numbers
20 and then 5, each followed by its single history chunk. -/
def runC4b : List (Nat × List Nat) × ClusterRun × Bool × Bool :=
  runCluster 1 1 (clusterRunInit [0, 0] 10)
    [([⟨20, 1⟩, ⟨5, 1⟩], [(20, some [1]), (5, some [2])]), ([], [])]

/-- C4, counterexample, refuting both halves of the claim.
(1) In `runC4` the only epoch has `history_len = 0`, so its
`PendingEpoch` is complete the moment it is pushed; after the poll the
head of `pending_epochs` is complete, yet nothing was emitted and the
stream neither emitted nor terminated: `poll_next` only checks
`pending_epochs[0].is_complete()` inside the history-chunk loop
(history.rs:160), and no chunk ever arrives for an epoch whose
`history_len` is 0.  This refutes "an epoch is emitted exactly when
the head of pending_epochs becomes complete".
(2) In `runC4b` the cluster emits, without panicking, epochs with
epoch numbers `[20, 5]` from `epoch_offset = 10`: the code never
checks the epoch numbers the epoch queue delivers (the `TODO` at
history.rs:95), so without an assumption on the peers' responses the
emitted epoch numbers are neither strictly increasing nor start at
`epoch_offset`.  This refutes the unconditional "the epochs it emits
form a strictly increasing sequence of epoch numbers starting at
epoch_offset". -/
theorem syncCluster_emission_counterexample :
    runC4.1 = [] ∧
    runC4.2.2.1 = false ∧
    runC4.2.2.2 = false ∧
    runC4.2.1.cs.pendingEpochs.head?.map PendingEpoch.isComplete = some true ∧
    runC4b.1 = [(20, [1]), (5, [2])] ∧
    runC4b.2.2.2 = false ∧
    (runC4b.1.map Prod.fst).map (epochAt 1) ≠
      List.range' 10 ((runC4b.1.map Prod.fst).map (epochAt 1)).length := by
  refine ⟨by decide, by decide, by decide, by decide, by decide, by decide, by decide⟩

/-- Block numbers of the pending epochs plus the epochs yielded but
not yet consumed, in queue order. -/
def runTrail (r : ClusterRun) : List Nat :=
  r.cs.pendingEpochs.map PendingEpoch.blockNumber ++ r.epochBuf.map EpochInfo.blockNumber

/-- Block numbers of all epochs the epoch queue yields over a run, in
yield order. -/
def pollsEpochBns (polls : List (List EpochInfo × List (Nat × Option (List Nat)))) : List Nat :=
  (polls.map (fun p => p.1.map EpochInfo.blockNumber)).flatten

theorem consumeEpochs_pending (chunkSize : Nat) (es : List EpochInfo) (s : ClusterState) :
    (consumeEpochs chunkSize s es).pendingEpochs.map PendingEpoch.blockNumber =
      s.pendingEpochs.map PendingEpoch.blockNumber ++ es.map EpochInfo.blockNumber := by
  induction es generalizing s with
  | nil => simp [consumeEpochs]
  | cons e rest ih =>
    simp [consumeEpochs, ih, onEpochReceived]

theorem listUpdate_map_blockNumber (txs : List Nat) (i : Nat) (l : List PendingEpoch) :
    (listUpdate (appendChunk txs) i l).map PendingEpoch.blockNumber =
      l.map PendingEpoch.blockNumber := by
  induction l generalizing i with
  | nil => simp [listUpdate]
  | cons pe rest ih =>
    cases i with
    | zero => simp [listUpdate, appendChunk]
    | succ n => simp [listUpdate, ih]

theorem onHistoryChunkReceived_pending {epochLength en : Nat} {ch : Option (List Nat)}
    {s s' : ClusterState} (h : onHistoryChunkReceived epochLength s en ch = some s') :
    s'.pendingEpochs.map PendingEpoch.blockNumber =
      s.pendingEpochs.map PendingEpoch.blockNumber := by
  unfold onHistoryChunkReceived at h
  rcases hpe : s.pendingEpochs with _ | ⟨pe0, tail⟩
  · rw [hpe] at h
    exact Option.noConfusion h
  · rw [hpe] at h
    simp only at h
    split at h
    · exact Option.noConfusion h
    · split at h
      · rcases ch with _ | txs
        · exact Option.noConfusion h
        · obtain rfl := Option.some.inj h
          rw [← hpe]
          simpa using listUpdate_map_blockNumber txs _ s.pendingEpochs
      · exact Option.noConfusion h

theorem consumeChunks_spec (epochLength : Nat) (cb : List (Nat × Option (List Nat)))
    (s : ClusterState) {out : ClusterPollOut} {s2 : ClusterState}
    {cb' : List (Nat × Option (List Nat))}
    (h : consumeChunks epochLength s cb = some (out, s2, cb')) :
    (∀ bn hist, out = .item bn hist →
      s.pendingEpochs.map PendingEpoch.blockNumber =
        bn :: s2.pendingEpochs.map PendingEpoch.blockNumber) ∧
    ((out = .done ∨ out = .pend) →
      s2.pendingEpochs.map PendingEpoch.blockNumber =
        s.pendingEpochs.map PendingEpoch.blockNumber) := by
  induction cb generalizing s with
  | nil =>
    unfold consumeChunks at h
    split at h
    · simp only [Option.some.injEq, Prod.mk.injEq] at h
      obtain ⟨rfl, rfl, rfl⟩ := h
      exact ⟨fun bn hist hco => ClusterPollOut.noConfusion hco, fun _ => rfl⟩
    · simp only [Option.some.injEq, Prod.mk.injEq] at h
      obtain ⟨rfl, rfl, rfl⟩ := h
      exact ⟨fun bn hist hco => ClusterPollOut.noConfusion hco, fun _ => rfl⟩
  | cons c rest ih =>
    obtain ⟨en, ch⟩ := c
    unfold consumeChunks at h
    rcases hoc : onHistoryChunkReceived epochLength s en ch with _ | s1
    · rw [hoc] at h
      exact Option.noConfusion h
    · rw [hoc] at h
      have hpend := onHistoryChunkReceived_pending hoc
      split at h
      next => exact Option.noConfusion h
      next s1' hpe' =>
        obtain rfl := Option.some.inj hpe'
        split at h
        next hpe2 =>
          have := ih s1 h
          rw [hpend] at this
          exact this
        next pe0 tail2 hpe2 =>
          split at h
          · simp only [Option.some.injEq, Prod.mk.injEq] at h
            obtain ⟨rfl, rfl, rfl⟩ := h
            refine ⟨?_, ?_⟩
            · intro bn hist hco
              injection hco with hbn hh
              rw [← hpend, hpe2, ← hbn]
              rfl
            · rintro (hco | hco) <;> exact ClusterPollOut.noConfusion hco
          · have := ih s1 h
            rw [hpend] at this
            exact this

theorem runCluster_emitted (epochLength chunkSize : Nat)
    (polls : List (List EpochInfo × List (Nat × Option (List Nat)))) (r : ClusterRun) :
    ∃ consumed : List Nat,
      consumed <+: pollsEpochBns polls ∧
      (runCluster epochLength chunkSize r polls).1.map Prod.fst ++
          runTrail (runCluster epochLength chunkSize r polls).2.1 =
        runTrail r ++ consumed := by
  induction polls generalizing r with
  | nil =>
    exact ⟨[], ⟨[], rfl⟩, by simp [runCluster]⟩
  | cons poll rest ih =>
    obtain ⟨eArr, cArr⟩ := poll
    have hbns : pollsEpochBns ((eArr, cArr) :: rest) =
        eArr.map EpochInfo.blockNumber ++ pollsEpochBns rest := by
      simp [pollsEpochBns]
    by_cases hcan : r.cs.pendingEpochs.length < 5
    · -- the epoch buffer is drained
      have htrail : ∀ s2 : ClusterState,
          s2.pendingEpochs.map PendingEpoch.blockNumber =
            (consumeEpochs chunkSize r.cs (r.epochBuf ++ eArr)).pendingEpochs.map
              PendingEpoch.blockNumber →
          runTrail ⟨s2, [], r.chunkBuf ++ cArr⟩ =
            runTrail r ++ eArr.map EpochInfo.blockNumber := by
        intro s2 hs2
        simp [runTrail, hs2, consumeEpochs_pending]
      simp only [runCluster, hcan, if_pos]
      rcases hc : consumeChunks epochLength
          (consumeEpochs chunkSize r.cs (r.epochBuf ++ eArr)) (r.chunkBuf ++ cArr)
        with _ | ⟨out, s2, cb'⟩
      · refine ⟨eArr.map EpochInfo.blockNumber, ⟨pollsEpochBns rest, hbns.symm⟩, ?_⟩
        simp only [hc]
        exact htrail _ rfl
      · have hspec := consumeChunks_spec epochLength _ _ hc
        match out with
        | .done =>
          refine ⟨eArr.map EpochInfo.blockNumber, ⟨pollsEpochBns rest, hbns.symm⟩, ?_⟩
          simp only [hc]
          exact htrail s2 (hspec.2 (Or.inl rfl))
        | .pend =>
          obtain ⟨c', hc', heq⟩ := ih ⟨s2, [], cb'⟩
          refine ⟨eArr.map EpochInfo.blockNumber ++ c', ?_, ?_⟩
          · rw [hbns]
            exact (List.prefix_append_right_inj _).mpr hc'
          · simp only [hc]
            rw [heq]
            have h2 : runTrail ⟨s2, [], cb'⟩ = runTrail r ++ eArr.map EpochInfo.blockNumber := by
              simp [runTrail, hspec.2 (Or.inr rfl), consumeEpochs_pending]
            rw [h2, List.append_assoc]
        | .item bn hist =>
          obtain ⟨c', hc', heq⟩ := ih ⟨s2, [], cb'⟩
          refine ⟨eArr.map EpochInfo.blockNumber ++ c', ?_, ?_⟩
          · rw [hbns]
            exact (List.prefix_append_right_inj _).mpr hc'
          · simp only [hc]
            have hhead := hspec.1 bn hist rfl
            simp only [List.map_cons, List.cons_append]
            rw [heq]
            have h2 : bn :: runTrail ⟨s2, [], cb'⟩ =
                runTrail r ++ eArr.map EpochInfo.blockNumber := by
              simp only [runTrail, List.map_nil, List.append_nil]
              rw [← hhead, consumeEpochs_pending]
              simp [List.append_assoc]
            rw [← List.append_assoc, ← h2]
            rfl
    · -- pending_epochs full: the epoch buffer stays queued
      have htrail : ∀ s2 : ClusterState,
          s2.pendingEpochs.map PendingEpoch.blockNumber =
            r.cs.pendingEpochs.map PendingEpoch.blockNumber →
          runTrail ⟨s2, r.epochBuf ++ eArr, r.chunkBuf ++ cArr⟩ =
            runTrail r ++ eArr.map EpochInfo.blockNumber := by
        intro s2 hs2
        simp [runTrail, hs2]
      simp only [runCluster, hcan, if_neg, if_false]
      rcases hc : consumeChunks epochLength r.cs (r.chunkBuf ++ cArr)
        with _ | ⟨out, s2, cb'⟩
      · refine ⟨eArr.map EpochInfo.blockNumber, ⟨pollsEpochBns rest, hbns.symm⟩, ?_⟩
        simp only [hc]
        exact htrail _ rfl
      · have hspec := consumeChunks_spec epochLength _ _ hc
        match out with
        | .done =>
          refine ⟨eArr.map EpochInfo.blockNumber, ⟨pollsEpochBns rest, hbns.symm⟩, ?_⟩
          simp only [hc]
          exact htrail s2 (hspec.2 (Or.inl rfl))
        | .pend =>
          obtain ⟨c', hc', heq⟩ := ih ⟨s2, r.epochBuf ++ eArr, cb'⟩
          refine ⟨eArr.map EpochInfo.blockNumber ++ c', ?_, ?_⟩
          · rw [hbns]
            exact (List.prefix_append_right_inj _).mpr hc'
          · simp only [hc]
            rw [heq]
            have h2 : runTrail ⟨s2, r.epochBuf ++ eArr, cb'⟩ =
                runTrail r ++ eArr.map EpochInfo.blockNumber := by
              simp [runTrail, hspec.2 (Or.inr rfl)]
            rw [h2, List.append_assoc]
        | .item bn hist =>
          obtain ⟨c', hc', heq⟩ := ih ⟨s2, r.epochBuf ++ eArr, cb'⟩
          refine ⟨eArr.map EpochInfo.blockNumber ++ c', ?_, ?_⟩
          · rw [hbns]
            exact (List.prefix_append_right_inj _).mpr hc'
          · simp only [hc]
            have hhead := hspec.1 bn hist rfl
            simp only [List.map_cons, List.cons_append]
            rw [heq]
            have h2 : bn :: runTrail ⟨s2, r.epochBuf ++ eArr, cb'⟩ =
                runTrail r ++ eArr.map EpochInfo.blockNumber := by
              simp only [runTrail, List.map_append]
              rw [← List.cons_append, ← hhead]
              simp [List.append_assoc]
            rw [← List.append_assoc, ← h2]
            rfl

theorem prefix_of_range_eq {p : List Nat} {off n : Nat} (h : p <+: List.range' off n) :
    p = List.range' off p.length := by
  induction p generalizing off n with
  | nil => rfl
  | cons a q ih =>
    obtain ⟨t, ht⟩ := h
    cases n with
    | zero => simp at ht
    | succ n =>
      rw [List.range'_succ] at ht
      injection ht with h1 h2
      subst h1
      rw [List.length_cons, List.range'_succ]
      rw [@ih (a + 1) n ⟨t, h2⟩]
      simp

/-- C4, amended.  Epochs are emitted by popping the head of the
`pending_epochs` FIFO, each only at the moment a received history
chunk has made the head complete; consequently, whenever the epochs
received from the epoch queue carry strictly increasing epoch numbers
starting at `epoch_offset` (the honest-peer case — the code does not
verify this itself, see the `TODO` at history.rs:95), the emitted
epochs form a strictly increasing sequence of epoch numbers starting
at `epoch_offset`.  The original claim's "emitted exactly when the
head becomes complete" is weakened to "only when": a head that is
already complete on arrival (`history_len = 0`) is not emitted (see
the counterexample). -/
theorem syncCluster_emission_epoch_numbers (epochLength chunkSize off : Nat) (ids : List Nat)
    (polls : List (List EpochInfo × List (Nat × Option (List Nat))))
    (hA : (pollsEpochBns polls).map (epochAt epochLength) =
      List.range' off (pollsEpochBns polls).length) :
    ((runCluster epochLength chunkSize (clusterRunInit ids off) polls).1.map Prod.fst).map
        (epochAt epochLength) =
      List.range' off
        ((runCluster epochLength chunkSize (clusterRunInit ids off) polls).1.map
          Prod.fst).length := by
  obtain ⟨consumed, hpref, heq⟩ :=
    runCluster_emitted epochLength chunkSize polls (clusterRunInit ids off)
  have hinit : runTrail (clusterRunInit ids off) = [] := rfl
  rw [hinit, List.nil_append] at heq
  have h1 : (runCluster epochLength chunkSize (clusterRunInit ids off) polls).1.map
      Prod.fst <+: consumed := ⟨_, heq⟩
  have h2 := (h1.trans hpref).map (epochAt epochLength)
  rw [hA] at h2
  have h3 := prefix_of_range_eq h2
  rw [h3, List.length_map]

/-- Environment for the C4 witness: one epoch id, offset 5,
`EPOCH_LENGTH = CHUNK_SIZE = 1`; the peer returns the macro block at
block number 5 with one history chunk, which then arrives. -/
def pollsW : List (List EpochInfo × List (Nat × Option (List Nat))) :=
  [([⟨5, 1⟩], [(5, some [7])])]

/-- Witness for C4 at a concrete input: the run emits exactly one
epoch, with epoch number 5 = the cluster's offset. -/
theorem syncCluster_emission_epoch_numbers_witness :
    ((runCluster 1 1 (clusterRunInit [9] 5) pollsW).1.map Prod.fst).map (epochAt 1) =
      List.range' 5 ((runCluster 1 1 (clusterRunInit [9] 5) pollsW).1.map Prod.fst).length :=
  syncCluster_emission_epoch_numbers 1 1 5 [9] pollsW (by decide)

/-! ### HistorySync clustering (`consensus-albatross/src/sync/history.rs`)

For `cluster_epoch_ids` a cluster is represented by the data the claim
is about: its epoch offset, its epoch-id list (hashes as `Nat`) and
its peer list (peer identities as `Nat`; the epoch queue and the
history queue of a cluster share this one peer list). -/

structure HCluster where
  offset : Nat
  ids : List Nat
  peers : List Nat
deriving DecidableEq, Repr

/-- Lexicographic comparison of `Vec<Blake2bHash>` (first differing
element decides; a strict prefix is smaller). -/
def listCmp : List Nat → List Nat → Ordering
  | [], [] => .eq
  | [], _ :: _ => .lt
  | _ :: _, [] => .gt
  | a :: as, b :: bs => (compare a b).then (listCmp as bs)

/-- `Ord for SyncCluster` (history.rs:195-209): lower offset first,
then higher peer count, then more ids, then lexicographic ids, and
the whole order reversed so the best cluster sorts last. -/
def clusterCmp (a b : HCluster) : Ordering :=
  ((((compare a.offset b.offset).then
    (compare b.peers.length a.peers.length)).then
    (compare b.ids.length a.ids.length)).then
    (listCmp a.ids b.ids)).swap

/-- Insertion sort by `clusterCmp` (`sort_unstable`; the claims are
about the resulting set of clusters, which any comparison sort
produces). -/
def clusterInsert (c : HCluster) : List HCluster → List HCluster
  | [] => [c]
  | d :: ds => if clusterCmp c d ≠ Ordering.gt then c :: d :: ds else d :: clusterInsert c ds

def clusterSort : List HCluster → List HCluster
  | [] => []
  | c :: cs => clusterInsert c (clusterSort cs)

/-- `SyncCluster::split_off(at)` (history.rs:130-138): the original
cluster keeps `ids[..at]`; the split-off cluster gets `ids[at..]`,
offset `epoch_offset + at` and the same peer list (the sender of the
triggering `EpochIds` is not yet among them). -/
def hclusterSplitOff (c : HCluster) (n : Nat) : HCluster × HCluster :=
  ({ c with ids := c.ids.take n },
   { offset := c.offset + n, ids := c.ids.drop n, peers := c.peers })

/-- Position of the first mismatch of two equal-length lists, or
their length if they fully agree (`position(|(a, b)| a != b).unwrap_or(len)`). -/
def firstMismatch : List Nat → List Nat → Nat
  | a :: as, b :: bs => if a = b then firstMismatch as bs + 1 else 0
  | _, _ => 0

/-- The loop over existing clusters in `cluster_epoch_ids`
(history.rs:293-326), threading `id_index` and the buffered new
clusters.  Returns the updated existing clusters (in place, in
order), the final `id_index`, and the buffered new clusters. -/
def clusterEpochIdsGo (eOff : Nat) (eIds : List Nat) (sender : Nat) :
    List HCluster → Nat → List HCluster → List HCluster × Nat × List HCluster
  | [], idIndex, newAcc => ([], idIndex, newAcc)
  | c :: rest, idIndex, newAcc =>
    if c.offset ≤ eOff ∧ eOff < c.offset + c.ids.length then
      let startOffset := eOff - c.offset
      let len := min (c.ids.length - startOffset) (eIds.length - idIndex)
      let matchUntil :=
        firstMismatch ((c.ids.drop startOffset).take len) ((eIds.drop idIndex).take len)
      if 0 < matchUntil then
        let pair :=
          if matchUntil < len then
            let s := hclusterSplitOff c (startOffset + matchUntil)
            (s.1, [s.2])
          else (c, [])
        let cKeep := { pair.1 with peers := pair.1.peers ++ [sender] }
        let r := clusterEpochIdsGo eOff eIds sender rest (idIndex + matchUntil) (newAcc ++ pair.2)
        (cKeep :: r.1, r.2)
      else
        let r := clusterEpochIdsGo eOff eIds sender rest idIndex newAcc
        (c :: r.1, r.2)
    else
      let r := clusterEpochIdsGo eOff eIds sender rest idIndex newAcc
      (c :: r.1, r.2)

/-- `HistorySync::cluster_epoch_ids` (history.rs:289-340): match the
incoming `EpochIds` against the existing clusters, splitting on
partial matches and adding the sender to every matched cluster; put
any unmatched suffix into a fresh cluster holding only the sender;
append the buffered new clusters and re-sort. -/
def clusterEpochIds (clusters : List HCluster) (eOff : Nat) (eIds : List Nat)
    (sender : Nat) : List HCluster :=
  let r := clusterEpochIdsGo eOff eIds sender clusters 0 []
  let newCls :=
    if r.2.1 < eIds.length then r.2.2 ++ [⟨eOff + r.2.1, eIds.drop r.2.1, [sender]⟩]
    else r.2.2
  clusterSort (r.1 ++ newCls)

/-- C5 (scenario S3).  One existing cluster at offset 10 with ids
`[h1, h2, h3, h4]` (encoded `[1, 2, 3, 4]`) and peer set `{p}`
(encoded `[0]`); incoming `EpochIds` with offset 11, ids
`[h2, h9, h10]` (encoded `[2, 9, 10]`) from sender `s` (encoded 7).
The resulting cluster set is exactly: offset 10 with ids `[h1, h2]`
and peers `{p, s}`; offset 12 with ids `[h3, h4]` and peers `{p}`;
and offset 12 with ids `[h9, h10]` and peers `{s}`. -/
theorem historySync_cluster_split :
    List.Perm (clusterEpochIds [⟨10, [1, 2, 3, 4], [0]⟩] 11 [2, 9, 10] 7)
      [⟨10, [1, 2], [0, 7]⟩, ⟨12, [3, 4], [0]⟩, ⟨12, [9, 10], [7]⟩] := by
  decide

/-! ### Mempool (`mempool/src/mempool.rs`)

Hashes, addresses and `Coin` amounts are `Nat` (`Coin` arithmetic in
the source is checked, panicking rather than wrapping, so `Nat` is
faithful on all non-panicking paths).  `Transaction` is modelled from
the spec (the `nimiq_transaction` crate is external): sender address,
typed sender and recipient accounts, `total_value = value + fee`,
`fee_per_byte` (as `ℚ`, see the header), serialized size and
`validity_start_height`; the transaction hash is content-derived, so
it is carried as a field; the staking payloads that
`OutgoingStakingTransactionProof::parse` / 
`IncomingStakingTransactionData::parse` produce (the mempool calls
them only on pre-verified transactions, where parsing succeeds) are
carried pre-parsed, with `compute_signer()` results inlined. -/

inductive AccountType where
  | basic
  | staking
deriving DecidableEq, Repr

inductive OutgoingStakingProof where
  | deleteValidator (signer : Nat)
  | unstake (signer : Nat)
deriving DecidableEq, Repr

inductive IncomingStakingData where
  | createValidator (signer : Nat)
  | createStaker (signer : Nat)
  | other
deriving DecidableEq, Repr

structure Transaction where
  hash : Nat
  sender : Nat
  senderType : AccountType
  recipientType : AccountType
  totalValue : Nat
  feePerByte : ℚ
  serializedSize : Nat
  validityStartHeight : Nat
  outgoingProof : OutgoingStakingProof
  incomingData : IncomingStakingData
deriving DecidableEq, Repr

structure SenderPendingState where
  total : Nat
  txns : List Nat
deriving DecidableEq, Repr

structure MempoolState where
  transactions : List (Nat × Transaction)
  transactionsByFee : List (Nat × ℚ)
  transactionsByAge : List (Nat × Nat)
  stateBySender : List (Nat × SenderPendingState)
  outgoingValidators : List Nat
  outgoingStakers : List Nat
  creatingValidators : List Nat
  creatingStakers : List Nat
deriving DecidableEq, Repr

/-- The state `Mempool::new` starts from: every index empty. -/
def emptyMempool : MempoolState := ⟨[], [], [], [], [], [], [], []⟩

/-- `HashSet::insert`: add the element if absent. -/
def sinsert (x : Nat) (l : List Nat) : List Nat := if x ∈ l then l else x :: l

/-- The outgoing-staking branch of `put` (mempool.rs:559-573): for a
staking sender, insert the proof's signer into `outgoing_validators`
or `outgoing_stakers`; `assert!` that it was not already present
(`none` = panic). -/
def putStakingOut (s : MempoolState) (tx : Transaction) : Option MempoolState :=
  if tx.senderType = .staking then
    match tx.outgoingProof with
    | .deleteValidator sg =>
      if sg ∈ s.outgoingValidators then none
      else some { s with outgoingValidators := sg :: s.outgoingValidators }
    | .unstake sg =>
      if sg ∈ s.outgoingStakers then none
      else some { s with outgoingStakers := sg :: s.outgoingStakers }
  else some s

/-- The incoming-staking branch of `put` (mempool.rs:576-591). -/
def putStakingIn (s : MempoolState) (tx : Transaction) : Option MempoolState :=
  if tx.recipientType = .staking then
    match tx.incomingData with
    | .createValidator sg =>
      if sg ∈ s.creatingValidators then none
      else some { s with creatingValidators := sg :: s.creatingValidators }
    | .createStaker sg =>
      if sg ∈ s.creatingStakers then none
      else some { s with creatingStakers := sg :: s.creatingStakers }
    | .other => some s
  else some s

/-- The non-staking part of `MempoolState::put` (mempool.rs:524-556):
insert the transaction into the three transaction indices and update
the sender's pending state. -/
def putCore (s : MempoolState) (tx : Transaction) : MempoolState :=
  match alookup tx.sender s.stateBySender with
  | none =>
    { s with
      transactions := (tx.hash, tx) :: s.transactions,
      transactionsByFee := (tx.hash, tx.feePerByte) :: s.transactionsByFee,
      transactionsByAge := (tx.hash, tx.validityStartHeight) :: s.transactionsByAge,
      stateBySender := (tx.sender, ⟨tx.totalValue, [tx.hash]⟩) :: s.stateBySender }
  | some _ =>
    { s with
      transactions := (tx.hash, tx) :: s.transactions,
      transactionsByFee := (tx.hash, tx.feePerByte) :: s.transactionsByFee,
      transactionsByAge := (tx.hash, tx.validityStartHeight) :: s.transactionsByAge,
      stateBySender := aupdate tx.sender (fun st => ⟨st.total + tx.totalValue, sinsert tx.hash st.txns⟩) s.stateBySender }

/-- `MempoolState::put` (mempool.rs:524-594).  Returns `some (s, false)`
when the hash is already present (no change), `some (s', true)` on
success, and `none` when a staking-uniqueness `assert!` fires. -/
def put (s : MempoolState) (tx : Transaction) : Option (MempoolState × Bool) :=
  if (alookup tx.hash s.transactions).isSome then some (s, false)
  else
    match putStakingOut (putCore s tx) tx with
    | none => none
    | some s3 =>
      match putStakingIn s3 tx with
      | none => none
      | some s4 => some (s4, true)

/-- The outgoing-staking branch of `remove` (mempool.rs:612-626): the
`assert!` requires the signer to be in the set (`none` = panic). -/
def removeStakingOut (s : MempoolState) (tx : Transaction) : Option MempoolState :=
  if tx.senderType = .staking then
    match tx.outgoingProof with
    | .deleteValidator sg =>
      if sg ∈ s.outgoingValidators then
        some { s with outgoingValidators := s.outgoingValidators.erase sg }
      else none
    | .unstake sg =>
      if sg ∈ s.outgoingStakers then
        some { s with outgoingStakers := s.outgoingStakers.erase sg }
      else none
  else some s

/-- The incoming-staking branch of `remove` (mempool.rs:629-644). -/
def removeStakingIn (s : MempoolState) (tx : Transaction) : Option MempoolState :=
  if tx.recipientType = .staking then
    match tx.incomingData with
    | .createValidator sg =>
      if sg ∈ s.creatingValidators then
        some { s with creatingValidators := s.creatingValidators.erase sg }
      else none
    | .createStaker sg =>
      if sg ∈ s.creatingStakers then
        some { s with creatingStakers := s.creatingStakers.erase sg }
      else none
    | .other => some s
  else some s

/-- The index updates of `MempoolState::remove` before the staking
branches (mempool.rs:597-609): drop the transaction from the three
transaction indices, subtract its `total_value` from the sender's
pending total and remove its hash from the sender's set, dropping the
sender entry entirely when the set empties. -/
def removeCore (s : MempoolState) (h : Nat) (tx : Transaction) (st : SenderPendingState) :
    MempoolState :=
  if (st.txns.erase h).isEmpty then
    { s with
      transactions := aerase h s.transactions,
      transactionsByAge := aerase h s.transactionsByAge,
      transactionsByFee := aerase h s.transactionsByFee,
      stateBySender := aerase tx.sender s.stateBySender }
  else
    { s with
      transactions := aerase h s.transactions,
      transactionsByAge := aerase h s.transactionsByAge,
      transactionsByFee := aerase h s.transactionsByFee,
      stateBySender := aupdate tx.sender (fun _ => ⟨st.total - tx.totalValue, st.txns.erase h⟩) s.stateBySender }

/-- `MempoolState::remove` (mempool.rs:596-647).  `some (s, none)`
when the hash is absent (the `?` early return, no change);
`some (s', some tx)` on success; `none` when the source would panic
(missing sender state, or a staking `assert!`). -/
def remove (s : MempoolState) (h : Nat) : Option (MempoolState × Option Transaction) :=
  match alookup h s.transactions with
  | none => some (s, none)
  | some tx =>
    match alookup tx.sender s.stateBySender with
    | none => none
    | some st =>
      match removeStakingOut (removeCore s h tx st) tx with
      | none => none
      | some s3 =>
        match removeStakingIn s3 tx with
        | none => none
        | some s4 => some (s4, some tx)

/-- `transactions_by_fee.peek()`: the entry with the highest priority
(the `KeyedPriorityQueue` is a max-queue over `FeeWrapper`, whose
`Ord` is `f64::total_cmp` on the fee per byte; ties are broken
arbitrarily by the heap, here by list position). -/
def peekFeeEntry : List (Nat × ℚ) → Option (Nat × ℚ)
  | [] => none
  | (h, q) :: rest =>
    match peekFeeEntry rest with
    | none => some (h, q)
    | some (h', q') => if q' ≤ q then some (h, q) else some (h', q')

/-- The `loop` of `Mempool::get_transactions_for_block`
(mempool.rs:389-414): peek the highest-fee transaction, stop if the
queue is empty or adding its serialized size would exceed
`max_bytes`; otherwise remove it from the mempool and append it to
the result.  The fuel argument bounds the iteration count (each
iteration removes one stored transaction); `none` propagates the
panics of `get(&tx_hash).unwrap()` / `remove`. -/
def gtfbLoop (maxBytes : Nat) : Nat → Nat → List Transaction → MempoolState →
    Option (List Transaction × MempoolState)
  | 0, _, _, _ => none
  | fuel + 1, size, acc, s =>
    match peekFeeEntry s.transactionsByFee with
    | none => some (acc.reverse, s)
    | some (h, _) =>
      match alookup h s.transactions with
      | none => none
      | some tx =>
        if maxBytes < size + tx.serializedSize then some (acc.reverse, s)
        else
          match remove s h with
          | none => none
          | some (s', _) => gtfbLoop maxBytes fuel (size + tx.serializedSize) (tx :: acc) s'

/-- `Mempool::get_transactions_for_block` (mempool.rs:375-423). -/
def getTransactionsForBlock (s : MempoolState) (maxBytes : Nat) :
    Option (List Transaction × MempoolState) :=
  if s.transactions.isEmpty then some ([], s)
  else gtfbLoop maxBytes (s.transactions.length + 1) 0 [] s

/-! ### The mempool master invariant -/

/-- Property of the value of an `Option`, false when absent. -/
def optHolds {α : Type} (o : Option α) (P : α → Prop) : Prop :=
  match o with
  | none => False
  | some a => P a

instance {α : Type} (o : Option α) (P : α → Prop) [inst : ∀ a, Decidable (P a)] :
    Decidable (optHolds o P) :=
  match o with
  | none => isFalse (fun h => h)
  | some a => inst a

/-- Property of the value of an `Option`, true when absent. -/
def optAll {α : Type} (o : Option α) (P : α → Prop) : Prop :=
  match o with
  | none => True
  | some a => P a

instance {α : Type} (o : Option α) (P : α → Prop) [inst : ∀ a, Decidable (P a)] :
    Decidable (optAll o P) :=
  match o with
  | none => isTrue trivial
  | some a => inst a

@[simp] theorem optHolds_none {α : Type} (P : α → Prop) : optHolds none P = False := rfl

@[simp] theorem optHolds_some {α : Type} (a : α) (P : α → Prop) :
    optHolds (some a) P = P a := rfl

@[simp] theorem optAll_none {α : Type} (P : α → Prop) : optAll none P = True := rfl

@[simp] theorem optAll_some {α : Type} (a : α) (P : α → Prop) :
    optAll (some a) P = P a := rfl

/-- The staking-uniqueness key of an outgoing staking transaction:
which set it goes to (`true` = `outgoing_validators`) and the signer. -/
def outKey (tx : Transaction) : Option (Bool × Nat) :=
  if tx.senderType = .staking then
    match tx.outgoingProof with
    | .deleteValidator sg => some (true, sg)
    | .unstake sg => some (false, sg)
  else none

/-- The staking-uniqueness key of an incoming creation transaction
(`true` = `creating_validators`). -/
def inKey (tx : Transaction) : Option (Bool × Nat) :=
  if tx.recipientType = .staking then
    match tx.incomingData with
    | .createValidator sg => some (true, sg)
    | .createStaker sg => some (false, sg)
    | .other => none
  else none

def outSet (s : MempoolState) (b : Bool) : List Nat :=
  if b then s.outgoingValidators else s.outgoingStakers

def inSet (s : MempoolState) (b : Bool) : List Nat :=
  if b then s.creatingValidators else s.creatingStakers

/-- The `total_value` of the stored transaction with the given hash
(0 when absent; the invariant guarantees presence wherever it is
summed). -/
def totalOf (s : MempoolState) (h : Nat) : Nat :=
  match alookup h s.transactions with
  | some tx => tx.totalValue
  | none => 0

/-- The sender of the stored transaction with the given hash. -/
def senderOf (s : MempoolState) (h : Nat) : Option Nat :=
  (alookup h s.transactions).map Transaction.sender

/-- The non-staking half of the mempool invariant: `HashMap` keys are
unique, `transactions_by_fee` / `transactions_by_age` key exactly the
stored transactions with priorities read off the transaction, and
`state_by_sender[a]` lists exactly the stored transactions of sender
`a`, with `total` the sum of their `total_value`s. -/
def coreInv (s : MempoolState) : Prop :=
  (s.transactions.map Prod.fst).Nodup ∧
  (s.stateBySender.map Prod.fst).Nodup ∧
  (∀ p ∈ s.transactions, (p.2).hash = p.1) ∧
  s.transactionsByFee = s.transactions.map (fun p => (p.1, (p.2).feePerByte)) ∧
  s.transactionsByAge = s.transactions.map (fun p => (p.1, (p.2).validityStartHeight)) ∧
  (∀ p ∈ s.stateBySender, (p.2).total = (((p.2).txns).map (totalOf s)).sum) ∧
  (∀ p ∈ s.stateBySender, ∀ h ∈ (p.2).txns, senderOf s h = some p.1) ∧
  (∀ p ∈ s.stateBySender, ((p.2).txns).Nodup) ∧
  (∀ p ∈ s.stateBySender, (p.2).txns ≠ []) ∧
  (∀ p ∈ s.transactions, optHolds (alookup ((p.2).sender) s.stateBySender) (fun st => p.1 ∈ st.txns))

/-- The staking half of the invariant: the four staking sets contain
the signer of every stored staking transaction of the matching kind,
and each such signer identifies the transaction uniquely (what the
`assert!`s enforce). -/
def stakeInv (s : MempoolState) : Prop :=
  (∀ p ∈ s.transactions, optAll (outKey p.2) (fun k => k.2 ∈ outSet s k.1)) ∧
  (∀ p ∈ s.transactions, ∀ q ∈ s.transactions, optAll (outKey p.2) (fun k => outKey q.2 = some k → p.1 = q.1)) ∧
  (∀ p ∈ s.transactions, optAll (inKey p.2) (fun k => k.2 ∈ inSet s k.1)) ∧
  (∀ p ∈ s.transactions, ∀ q ∈ s.transactions, optAll (inKey p.2) (fun k => inKey q.2 = some k → p.1 = q.1))

/-- The invariant tying the indices of a `MempoolState` together.  It
holds for the empty mempool and is preserved by `put` and `remove`
(proved below). -/
def MempoolInv (s : MempoolState) : Prop := coreInv s ∧ stakeInv s

instance (s : MempoolState) : Decidable (coreInv s) := by
  unfold coreInv
  infer_instance

instance (s : MempoolState) : Decidable (stakeInv s) := by
  unfold stakeInv
  infer_instance

instance (s : MempoolState) : Decidable (MempoolInv s) := by
  unfold MempoolInv
  infer_instance

theorem mempoolInv_empty : MempoolInv emptyMempool := by decide

/-- `coreInv` only reads the four non-staking indices. -/
theorem coreInv_congr {s s' : MempoolState}
    (h1 : s'.transactions = s.transactions)
    (h2 : s'.transactionsByFee = s.transactionsByFee)
    (h3 : s'.transactionsByAge = s.transactionsByAge)
    (h4 : s'.stateBySender = s.stateBySender) (hc : coreInv s) : coreInv s' := by
  unfold coreInv totalOf senderOf at hc ⊢
  rw [h1, h2, h3, h4]
  exact hc

/-! ### Characterizations of the staking branches by uniqueness key -/

theorem putStakingOut_eq (s : MempoolState) (tx : Transaction) :
    putStakingOut s tx =
      match outKey tx with
      | none => some s
      | some (true, sg) =>
        if sg ∈ s.outgoingValidators then none
        else some { s with outgoingValidators := sg :: s.outgoingValidators }
      | some (false, sg) =>
        if sg ∈ s.outgoingStakers then none
        else some { s with outgoingStakers := sg :: s.outgoingStakers } := by
  unfold putStakingOut outKey
  by_cases hs : tx.senderType = AccountType.staking
  · rw [if_pos hs, if_pos hs]
    rcases hp : tx.outgoingProof with sg | sg <;> rfl
  · rw [if_neg hs, if_neg hs]

theorem putStakingIn_eq (s : MempoolState) (tx : Transaction) :
    putStakingIn s tx =
      match inKey tx with
      | none => some s
      | some (true, sg) =>
        if sg ∈ s.creatingValidators then none
        else some { s with creatingValidators := sg :: s.creatingValidators }
      | some (false, sg) =>
        if sg ∈ s.creatingStakers then none
        else some { s with creatingStakers := sg :: s.creatingStakers } := by
  unfold putStakingIn inKey
  by_cases hs : tx.recipientType = AccountType.staking
  · rw [if_pos hs, if_pos hs]
    rcases hp : tx.incomingData with sg | sg | _ <;> rfl
  · rw [if_neg hs, if_neg hs]

theorem removeStakingOut_eq (s : MempoolState) (tx : Transaction) :
    removeStakingOut s tx =
      match outKey tx with
      | none => some s
      | some (true, sg) =>
        if sg ∈ s.outgoingValidators then
          some { s with outgoingValidators := s.outgoingValidators.erase sg }
        else none
      | some (false, sg) =>
        if sg ∈ s.outgoingStakers then
          some { s with outgoingStakers := s.outgoingStakers.erase sg }
        else none := by
  unfold removeStakingOut outKey
  by_cases hs : tx.senderType = AccountType.staking
  · rw [if_pos hs, if_pos hs]
    rcases hp : tx.outgoingProof with sg | sg <;> rfl
  · rw [if_neg hs, if_neg hs]

theorem removeStakingIn_eq (s : MempoolState) (tx : Transaction) :
    removeStakingIn s tx =
      match inKey tx with
      | none => some s
      | some (true, sg) =>
        if sg ∈ s.creatingValidators then
          some { s with creatingValidators := s.creatingValidators.erase sg }
        else none
      | some (false, sg) =>
        if sg ∈ s.creatingStakers then
          some { s with creatingStakers := s.creatingStakers.erase sg }
        else none := by
  unfold removeStakingIn inKey
  by_cases hs : tx.recipientType = AccountType.staking
  · rw [if_pos hs, if_pos hs]
    rcases hp : tx.incomingData with sg | sg | _ <;> rfl
  · rw [if_neg hs, if_neg hs]

/-! ### Preservation of the invariant by `put` -/

theorem alookup_isSome_of_mem_fst {β : Type} {k : Nat} {l : List (Nat × β)}
    (h : k ∈ l.map Prod.fst) : (alookup k l).isSome := by
  induction l with
  | nil => simp at h
  | cons p rest ih =>
    obtain ⟨k', v⟩ := p
    by_cases hk : k' = k
    · simp [alookup, hk]
    · simp only [List.map_cons, List.mem_cons] at h
      rcases h with h | h
      · exact absurd h.symm hk
      · simp [alookup, hk, ih h]

theorem not_mem_fst_of_alookup_none {β : Type} {k : Nat} {l : List (Nat × β)}
    (h : alookup k l = none) : k ∉ l.map Prod.fst := by
  intro hm
  have := alookup_isSome_of_mem_fst hm
  rw [h] at this
  exact Bool.noConfusion this

@[simp] theorem mem_sinsert_self (x : Nat) (l : List Nat) : x ∈ sinsert x l := by
  unfold sinsert
  split
  · assumption
  · exact List.mem_cons_self _ _

theorem mem_sinsert_of_mem {x y : Nat} {l : List Nat} (h : y ∈ l) : y ∈ sinsert x l := by
  unfold sinsert
  split
  · exact h
  · exact List.mem_cons_of_mem _ h

theorem sinsert_of_not_mem {x : Nat} {l : List Nat} (h : x ∉ l) : sinsert x l = x :: l := by
  unfold sinsert
  rw [if_neg h]

theorem totalOf_transactions_cons {s' s : MempoolState} {tx : Transaction}
    (hT : s'.transactions = (tx.hash, tx) :: s.transactions) {h' : Nat} (hne : h' ≠ tx.hash) :
    totalOf s' h' = totalOf s h' := by
  unfold totalOf
  rw [hT, alookup_cons, if_neg (Ne.symm hne)]

theorem senderOf_transactions_cons {s' s : MempoolState} {tx : Transaction}
    (hT : s'.transactions = (tx.hash, tx) :: s.transactions) {h' : Nat} (hne : h' ≠ tx.hash) :
    senderOf s' h' = senderOf s h' := by
  unfold senderOf
  rw [hT, alookup_cons, if_neg (Ne.symm hne)]

theorem putCore_fields (s : MempoolState) (tx : Transaction) :
    (putCore s tx).transactions = (tx.hash, tx) :: s.transactions ∧
    (putCore s tx).transactionsByFee = (tx.hash, tx.feePerByte) :: s.transactionsByFee ∧
    (putCore s tx).transactionsByAge = (tx.hash, tx.validityStartHeight) :: s.transactionsByAge ∧
    (putCore s tx).outgoingValidators = s.outgoingValidators ∧
    (putCore s tx).outgoingStakers = s.outgoingStakers ∧
    (putCore s tx).creatingValidators = s.creatingValidators ∧
    (putCore s tx).creatingStakers = s.creatingStakers := by
  unfold putCore
  rcases alookup tx.sender s.stateBySender with _ | st0 <;>
    exact ⟨rfl, rfl, rfl, rfl, rfl, rfl, rfl⟩

theorem putCore_sbs (s : MempoolState) (tx : Transaction) :
    (putCore s tx).stateBySender =
      match alookup tx.sender s.stateBySender with
      | none => (tx.sender, ⟨tx.totalValue, [tx.hash]⟩) :: s.stateBySender
      | some _ => aupdate tx.sender (fun st => ⟨st.total + tx.totalValue, sinsert tx.hash st.txns⟩) s.stateBySender := by
  unfold putCore
  rcases alookup tx.sender s.stateBySender with _ | st0 <;> rfl

/-- Every transaction hash recorded under a sender is a stored hash,
so a hash absent from `transactions` is absent from every sender's
transaction set. -/
theorem fresh_not_in_sender_txns {s : MempoolState} {tx0 : Transaction}
    (hstx : ∀ p ∈ s.stateBySender, ∀ h ∈ (p.2).txns, senderOf s h = some p.1)
    (hfresh : alookup tx0.hash s.transactions = none) :
    ∀ p ∈ s.stateBySender, tx0.hash ∉ (p.2).txns := by
  intro p hp hmem
  have h1 := hstx p hp _ hmem
  unfold senderOf at h1
  rw [hfresh] at h1
  exact Option.noConfusion h1

theorem putCore_coreInv {s : MempoolState} {tx : Transaction}
    (hc : coreInv s) (hfresh : alookup tx.hash s.transactions = none) :
    coreInv (putCore s tx) := by
  obtain ⟨hnd, hsnd, hhash, hfee, hage, htot, hstx, hstnd, hstne, hts⟩ := hc
  obtain ⟨hT, hF, hA, _, _, _, _⟩ := putCore_fields s tx
  have hS := putCore_sbs s tx
  have hmemf : tx.hash ∉ s.transactions.map Prod.fst := not_mem_fst_of_alookup_none hfresh
  have hTot : ∀ p ∈ s.stateBySender, ∀ h' ∈ (p.2).txns, totalOf (putCore s tx) h' = totalOf s h' := by
    intro p hp h' hh'
    have hne : h' ≠ tx.hash := by
      intro he
      exact fresh_not_in_sender_txns hstx hfresh p hp (he ▸ hh')
    exact totalOf_transactions_cons hT hne
  have hSnd : ∀ p ∈ s.stateBySender, ∀ h' ∈ (p.2).txns, senderOf (putCore s tx) h' = senderOf s h' := by
    intro p hp h' hh'
    have hne : h' ≠ tx.hash := by
      intro he
      exact fresh_not_in_sender_txns hstx hfresh p hp (he ▸ hh')
    exact senderOf_transactions_cons hT hne
  refine ⟨?_, ?_, ?_, ?_, ?_, ?_, ?_, ?_, ?_, ?_⟩
  · rw [hT]
    simp only [List.map_cons]
    exact List.nodup_cons.mpr ⟨hmemf, hnd⟩
  · rw [hS]
    rcases hsb : alookup tx.sender s.stateBySender with _ | st0
    · simp only [List.map_cons]
      exact List.nodup_cons.mpr ⟨not_mem_fst_of_alookup_none hsb, hsnd⟩
    · rw [map_fst_aupdate]
      exact hsnd
  · rw [hT]
    intro p hp
    rcases List.mem_cons.mp hp with h | h
    · subst h
      rfl
    · exact hhash p h
  · rw [hF, hT, hfee]
    rfl
  · rw [hA, hT, hage]
    rfl
  · rw [hS]
    rcases hsb : alookup tx.sender s.stateBySender with _ | st0
    · intro p hp
      rcases List.mem_cons.mp hp with h | h
      · subst h
        simp [totalOf, hT, alookup]
      · rw [htot p h]
        congr 1
        exact (List.map_congr_left (hTot p h)).symm
    · intro p hp
      rcases mem_aupdate hp with h | ⟨hp1, v, hv, hp2⟩
      · rw [htot p h]
        congr 1
        exact (List.map_congr_left (hTot p h)).symm
      · rw [hsb] at hv
        obtain rfl := Option.some.inj hv
        have hst0 : (tx.sender, st0) ∈ s.stateBySender := alookup_mem hsb
        have hnotin : tx.hash ∉ st0.txns := fresh_not_in_sender_txns hstx hfresh _ hst0
        rw [hp2, sinsert_of_not_mem hnotin]
        simp only [List.map_cons, List.sum_cons]
        have h1 : totalOf (putCore s tx) tx.hash = tx.totalValue := by
          simp [totalOf, hT, alookup]
        rw [h1, htot _ hst0, List.map_congr_left (hTot _ hst0)]
        omega
  · rw [hS]
    rcases hsb : alookup tx.sender s.stateBySender with _ | st0
    · intro p hp
      rcases List.mem_cons.mp hp with h | h
      · subst h
        intro h' hh'
        simp only [List.mem_singleton] at hh'
        subst hh'
        simp [senderOf, hT, alookup]
      · intro h' hh'
        rw [hSnd p h h' hh']
        exact hstx p h h' hh'
    · intro p hp
      rcases mem_aupdate hp with h | ⟨hp1, v, hv, hp2⟩
      · intro h' hh'
        rw [hSnd p h h' hh']
        exact hstx p h h' hh'
      · rw [hsb] at hv
        obtain rfl := Option.some.inj hv
        have hst0 : (tx.sender, st0) ∈ s.stateBySender := alookup_mem hsb
        have hnotin : tx.hash ∉ st0.txns := fresh_not_in_sender_txns hstx hfresh _ hst0
        intro h' hh'
        rw [hp2, sinsert_of_not_mem hnotin] at hh'
        rcases List.mem_cons.mp hh' with h | h
        · subst h
          rw [hp1]
          simp [senderOf, hT, alookup]
        · rw [hSnd _ hst0 h' h, hp1]
          exact hstx _ hst0 h' h
  · rw [hS]
    rcases hsb : alookup tx.sender s.stateBySender with _ | st0
    · intro p hp
      rcases List.mem_cons.mp hp with h | h
      · subst h
        exact List.nodup_singleton _
      · exact hstnd p h
    · intro p hp
      rcases mem_aupdate hp with h | ⟨hp1, v, hv, hp2⟩
      · exact hstnd p h
      · rw [hsb] at hv
        obtain rfl := Option.some.inj hv
        have hst0 : (tx.sender, st0) ∈ s.stateBySender := alookup_mem hsb
        have hnotin : tx.hash ∉ st0.txns := fresh_not_in_sender_txns hstx hfresh _ hst0
        rw [hp2, sinsert_of_not_mem hnotin]
        exact List.nodup_cons.mpr ⟨hnotin, hstnd _ hst0⟩
  · rw [hS]
    rcases hsb : alookup tx.sender s.stateBySender with _ | st0
    · intro p hp
      rcases List.mem_cons.mp hp with h | h
      · subst h
        simp
      · exact hstne p h
    · intro p hp
      rcases mem_aupdate hp with h | ⟨hp1, v, hv, hp2⟩
      · exact hstne p h
      · rw [hp2]
        show sinsert tx.hash v.txns ≠ []
        unfold sinsert
        split
        · exact hstne _ (alookup_mem hv)
        · simp
  · rw [hT]
    intro p hp
    rcases List.mem_cons.mp hp with h | h
    · subst h
      rw [hS]
      rcases hsb : alookup tx.sender s.stateBySender with _ | st0
      · simp [alookup]
      · rw [alookup_aupdate_self _ hsb]
        simp
    · rw [hS]
      rcases hsb : alookup tx.sender s.stateBySender with _ | st0
      · have hps := hts p h
        by_cases hsame : (p.2).sender = tx.sender
        · rw [hsame, hsb] at hps
          exact absurd hps (by simp)
        · rw [alookup_cons, if_neg (fun he => hsame he.symm)]
          exact hps
      · have hps := hts p h
        by_cases hsame : (p.2).sender = tx.sender
        · rw [hsame, hsb] at hps
          simp only [optHolds_some] at hps
          rw [hsame, alookup_aupdate_self _ hsb]
          simp only [optHolds_some]
          exact mem_sinsert_of_mem hps
        · rw [alookup_aupdate_ne hsame]
          exact hps

theorem fst_ne_of_mem_aerase {β : Type} {k : Nat} {l : List (Nat × β)}
    (hnd : (l.map Prod.fst).Nodup) {p : Nat × β} (hp : p ∈ aerase k l) : p.1 ≠ k := by
  intro he
  have h1 : p.1 ∈ (aerase k l).map Prod.fst := List.mem_map.mpr ⟨p, hp, rfl⟩
  rw [he] at h1
  exact not_mem_fst_of_alookup_none (alookup_aerase_self k hnd) h1

/-- Inserting a fresh transaction whose staking key (if any) was
absent from its set preserves the two staking-set invariants; stated
generically over the outgoing (`outKey`/`outSet`) and incoming
(`inKey`/`inSet`) sides. -/
theorem stake_insert_preserved (key : Transaction → Option (Bool × Nat))
    (set : MempoolState → Bool → List Nat) {sOld sNew : MempoolState} {tx : Transaction}
    (hT : sNew.transactions = (tx.hash, tx) :: sOld.transactions)
    (hIns : (key tx = none ∧ ∀ b, set sNew b = set sOld b) ∨
      (∃ k, key tx = some k ∧ k.2 ∉ set sOld k.1 ∧
        set sNew k.1 = k.2 :: set sOld k.1 ∧ ∀ b, b ≠ k.1 → set sNew b = set sOld b))
    (h1 : ∀ p ∈ sOld.transactions, optAll (key p.2) (fun k => k.2 ∈ set sOld k.1))
    (h2 : ∀ p ∈ sOld.transactions, ∀ q ∈ sOld.transactions,
      optAll (key p.2) (fun k => key q.2 = some k → p.1 = q.1)) :
    (∀ p ∈ sNew.transactions, optAll (key p.2) (fun k => k.2 ∈ set sNew k.1)) ∧
    (∀ p ∈ sNew.transactions, ∀ q ∈ sNew.transactions,
      optAll (key p.2) (fun k => key q.2 = some k → p.1 = q.1)) := by
  have hmem : ∀ b sg, sg ∈ set sOld b → sg ∈ set sNew b := by
    intro b sg hsg
    rcases hIns with ⟨_, hall⟩ | ⟨k, _, _, hk1, hk2⟩
    · rw [hall b]
      exact hsg
    · by_cases hb : b = k.1
      · subst hb
        rw [hk1]
        exact List.mem_cons_of_mem _ hsg
      · rw [hk2 b hb]
        exact hsg
  have hOldKey : ∀ q ∈ sOld.transactions, ∀ k, key q.2 = some k → key tx ≠ some k := by
    intro q hq k hk he
    rcases hIns with ⟨hnone, _⟩ | ⟨k', hk', hnotin, _, _⟩
    · rw [hnone] at he
      exact Option.noConfusion he
    · rw [hk'] at he
      obtain rfl := Option.some.inj he
      have := h1 q hq
      rw [hk] at this
      exact hnotin this
  constructor
  · intro p hp
    rw [hT] at hp
    rcases List.mem_cons.mp hp with hnew | hold
    · subst hnew
      rcases hIns with ⟨hnone, _⟩ | ⟨k, hk, _, hk1, _⟩
      · simp [hnone]
      · rw [hk]
        simp only [optAll_some]
        rw [hk1]
        exact List.mem_cons_self _ _
    · have := h1 p hold
      rcases hkp : key p.2 with _ | k'
      · simp
      · rw [hkp] at this
        simp only [optAll_some] at this ⊢
        exact hmem _ _ this
  · intro p hp q hq
    rw [hT] at hp hq
    rcases List.mem_cons.mp hp with hpnew | hpold <;>
      rcases List.mem_cons.mp hq with hqnew | hqold
    · subst hpnew
      subst hqnew
      rcases hkp : key tx with _ | k'
      · simp
      · simp
    · subst hpnew
      rcases hkp : key tx with _ | k'
      · simp
      · simp only [optAll_some]
        intro hq'
        exact absurd hkp (hOldKey q hqold k' hq')
    · subst hqnew
      rcases hkp : key p.2 with _ | k'
      · simp
      · simp only [optAll_some]
        intro hq'
        exact absurd hq' (hOldKey p hpold k' hkp)
    · have := h2 p hpold q hqold
      exact this

/-- Removing a stored transaction and erasing its staking key (if
any) from its set preserves the two staking-set invariants. -/
theorem stake_erase_preserved (key : Transaction → Option (Bool × Nat))
    (set : MempoolState → Bool → List Nat) {sOld sNew : MempoolState} {tx : Transaction}
    (hnd : (sOld.transactions.map Prod.fst).Nodup)
    (htx : alookup tx.hash sOld.transactions = some tx)
    (hT : sNew.transactions = aerase tx.hash sOld.transactions)
    (hErs : (key tx = none ∧ ∀ b, set sNew b = set sOld b) ∨
      (∃ k, key tx = some k ∧ set sNew k.1 = (set sOld k.1).erase k.2 ∧
        ∀ b, b ≠ k.1 → set sNew b = set sOld b))
    (h1 : ∀ p ∈ sOld.transactions, optAll (key p.2) (fun k => k.2 ∈ set sOld k.1))
    (h2 : ∀ p ∈ sOld.transactions, ∀ q ∈ sOld.transactions,
      optAll (key p.2) (fun k => key q.2 = some k → p.1 = q.1)) :
    (∀ p ∈ sNew.transactions, optAll (key p.2) (fun k => k.2 ∈ set sNew k.1)) ∧
    (∀ p ∈ sNew.transactions, ∀ q ∈ sNew.transactions,
      optAll (key p.2) (fun k => key q.2 = some k → p.1 = q.1)) := by
  have htxmem : (tx.hash, tx) ∈ sOld.transactions := alookup_mem htx
  constructor
  · intro p hp
    rw [hT] at hp
    have hpold : p ∈ sOld.transactions := mem_aerase_of_mem hp
    have hpne : p.1 ≠ tx.hash := fst_ne_of_mem_aerase hnd hp
    have := h1 p hpold
    rcases hkp : key p.2 with _ | k'
    · simp
    · rw [hkp] at this
      simp only [optAll_some] at this ⊢
      rcases hErs with ⟨_, hall⟩ | ⟨k, hk, hk1, hk2⟩
      · rw [hall k'.1]
        exact this
      · have hkne : k' ≠ k := by
          intro he
          subst he
          have hu := h2 p hpold (tx.hash, tx) htxmem
          rw [hkp] at hu
          simp only [optAll_some] at hu
          exact hpne (hu hk)
        by_cases hb : k'.1 = k.1
        · rw [hb, hk1]
          have hsgne : k'.2 ≠ k.2 := by
            intro he2
            exact hkne (Prod.ext hb he2)
          rw [hb] at this
          exact (List.mem_erase_of_ne hsgne).mpr this
        · rw [hk2 k'.1 hb]
          exact this
  · intro p hp q hq
    rw [hT] at hp hq
    exact h2 p (mem_aerase_of_mem hp) q (mem_aerase_of_mem hq)

theorem putCore_sets (s : MempoolState) (tx : Transaction) :
    (∀ b, outSet (putCore s tx) b = outSet s b) ∧ (∀ b, inSet (putCore s tx) b = inSet s b) := by
  obtain ⟨_, _, _, h1, h2, h3, h4⟩ := putCore_fields s tx
  constructor <;> intro b <;> cases b <;> simp [outSet, inSet, h1, h2, h3, h4]

theorem putStakingOut_step {s0 : MempoolState} {tx : Transaction} {s3 : MempoolState}
    (h : putStakingOut s0 tx = some s3) :
    s3.transactions = s0.transactions ∧ s3.transactionsByFee = s0.transactionsByFee ∧
    s3.transactionsByAge = s0.transactionsByAge ∧ s3.stateBySender = s0.stateBySender ∧
    (∀ b, inSet s3 b = inSet s0 b) ∧
    ((outKey tx = none ∧ ∀ b, outSet s3 b = outSet s0 b) ∨
      (∃ k, outKey tx = some k ∧ k.2 ∉ outSet s0 k.1 ∧
        outSet s3 k.1 = k.2 :: outSet s0 k.1 ∧ ∀ b, b ≠ k.1 → outSet s3 b = outSet s0 b)) := by
  rw [putStakingOut_eq] at h
  rcases hok : outKey tx with _ | ⟨b1, sg⟩
  · rw [hok] at h
    obtain rfl := Option.some.inj h
    exact ⟨rfl, rfl, rfl, rfl, fun b => rfl, Or.inl ⟨rfl, fun b => rfl⟩⟩
  · rw [hok] at h
    cases b1
    · have h2 : (if sg ∈ s0.outgoingStakers then none
          else some { s0 with outgoingStakers := sg :: s0.outgoingStakers }) = some s3 := h
      split at h2
      · exact Option.noConfusion h2
      next hni =>
        obtain rfl := Option.some.inj h2
        refine ⟨rfl, rfl, rfl, rfl, fun b => by cases b <;> rfl,
          Or.inr ⟨(false, sg), rfl, hni, by simp [outSet], ?_⟩⟩
        intro b hb
        cases b
        · exact absurd rfl hb
        · simp [outSet]
    · have h2 : (if sg ∈ s0.outgoingValidators then none
          else some { s0 with outgoingValidators := sg :: s0.outgoingValidators }) = some s3 := h
      split at h2
      · exact Option.noConfusion h2
      next hni =>
        obtain rfl := Option.some.inj h2
        refine ⟨rfl, rfl, rfl, rfl, fun b => by cases b <;> rfl,
          Or.inr ⟨(true, sg), rfl, hni, by simp [outSet], ?_⟩⟩
        intro b hb
        cases b
        · simp [outSet]
        · exact absurd rfl hb

theorem putStakingIn_step {s0 : MempoolState} {tx : Transaction} {s3 : MempoolState}
    (h : putStakingIn s0 tx = some s3) :
    s3.transactions = s0.transactions ∧ s3.transactionsByFee = s0.transactionsByFee ∧
    s3.transactionsByAge = s0.transactionsByAge ∧ s3.stateBySender = s0.stateBySender ∧
    (∀ b, outSet s3 b = outSet s0 b) ∧
    ((inKey tx = none ∧ ∀ b, inSet s3 b = inSet s0 b) ∨
      (∃ k, inKey tx = some k ∧ k.2 ∉ inSet s0 k.1 ∧
        inSet s3 k.1 = k.2 :: inSet s0 k.1 ∧ ∀ b, b ≠ k.1 → inSet s3 b = inSet s0 b)) := by
  rw [putStakingIn_eq] at h
  rcases hok : inKey tx with _ | ⟨b1, sg⟩
  · rw [hok] at h
    obtain rfl := Option.some.inj h
    exact ⟨rfl, rfl, rfl, rfl, fun b => rfl, Or.inl ⟨rfl, fun b => rfl⟩⟩
  · rw [hok] at h
    cases b1
    · have h2 : (if sg ∈ s0.creatingStakers then none
          else some { s0 with creatingStakers := sg :: s0.creatingStakers }) = some s3 := h
      split at h2
      · exact Option.noConfusion h2
      next hni =>
        obtain rfl := Option.some.inj h2
        refine ⟨rfl, rfl, rfl, rfl, fun b => by cases b <;> rfl,
          Or.inr ⟨(false, sg), rfl, hni, by simp [inSet], ?_⟩⟩
        intro b hb
        cases b
        · exact absurd rfl hb
        · simp [inSet]
    · have h2 : (if sg ∈ s0.creatingValidators then none
          else some { s0 with creatingValidators := sg :: s0.creatingValidators }) = some s3 := h
      split at h2
      · exact Option.noConfusion h2
      next hni =>
        obtain rfl := Option.some.inj h2
        refine ⟨rfl, rfl, rfl, rfl, fun b => by cases b <;> rfl,
          Or.inr ⟨(true, sg), rfl, hni, by simp [inSet], ?_⟩⟩
        intro b hb
        cases b
        · simp [inSet]
        · exact absurd rfl hb

theorem removeStakingOut_step {s0 : MempoolState} {tx : Transaction} {s3 : MempoolState}
    (h : removeStakingOut s0 tx = some s3) :
    s3.transactions = s0.transactions ∧ s3.transactionsByFee = s0.transactionsByFee ∧
    s3.transactionsByAge = s0.transactionsByAge ∧ s3.stateBySender = s0.stateBySender ∧
    (∀ b, inSet s3 b = inSet s0 b) ∧
    ((outKey tx = none ∧ ∀ b, outSet s3 b = outSet s0 b) ∨
      (∃ k, outKey tx = some k ∧ outSet s3 k.1 = (outSet s0 k.1).erase k.2 ∧
        ∀ b, b ≠ k.1 → outSet s3 b = outSet s0 b)) := by
  rw [removeStakingOut_eq] at h
  rcases hok : outKey tx with _ | ⟨b1, sg⟩
  · rw [hok] at h
    obtain rfl := Option.some.inj h
    exact ⟨rfl, rfl, rfl, rfl, fun b => rfl, Or.inl ⟨rfl, fun b => rfl⟩⟩
  · rw [hok] at h
    cases b1
    · have h2 : (if sg ∈ s0.outgoingStakers then
          some { s0 with outgoingStakers := s0.outgoingStakers.erase sg } else none) = some s3 := h
      split at h2
      next hmem =>
        obtain rfl := Option.some.inj h2
        refine ⟨rfl, rfl, rfl, rfl, fun b => by cases b <;> rfl,
          Or.inr ⟨(false, sg), rfl, by simp [outSet], ?_⟩⟩
        intro b hb
        cases b
        · exact absurd rfl hb
        · simp [outSet]
      · exact Option.noConfusion h2
    · have h2 : (if sg ∈ s0.outgoingValidators then
          some { s0 with outgoingValidators := s0.outgoingValidators.erase sg } else none) = some s3 := h
      split at h2
      next hmem =>
        obtain rfl := Option.some.inj h2
        refine ⟨rfl, rfl, rfl, rfl, fun b => by cases b <;> rfl,
          Or.inr ⟨(true, sg), rfl, by simp [outSet], ?_⟩⟩
        intro b hb
        cases b
        · simp [outSet]
        · exact absurd rfl hb
      · exact Option.noConfusion h2

theorem removeStakingIn_step {s0 : MempoolState} {tx : Transaction} {s3 : MempoolState}
    (h : removeStakingIn s0 tx = some s3) :
    s3.transactions = s0.transactions ∧ s3.transactionsByFee = s0.transactionsByFee ∧
    s3.transactionsByAge = s0.transactionsByAge ∧ s3.stateBySender = s0.stateBySender ∧
    (∀ b, outSet s3 b = outSet s0 b) ∧
    ((inKey tx = none ∧ ∀ b, inSet s3 b = inSet s0 b) ∨
      (∃ k, inKey tx = some k ∧ inSet s3 k.1 = (inSet s0 k.1).erase k.2 ∧
        ∀ b, b ≠ k.1 → inSet s3 b = inSet s0 b)) := by
  rw [removeStakingIn_eq] at h
  rcases hok : inKey tx with _ | ⟨b1, sg⟩
  · rw [hok] at h
    obtain rfl := Option.some.inj h
    exact ⟨rfl, rfl, rfl, rfl, fun b => rfl, Or.inl ⟨rfl, fun b => rfl⟩⟩
  · rw [hok] at h
    cases b1
    · have h2 : (if sg ∈ s0.creatingStakers then
          some { s0 with creatingStakers := s0.creatingStakers.erase sg } else none) = some s3 := h
      split at h2
      next hmem =>
        obtain rfl := Option.some.inj h2
        refine ⟨rfl, rfl, rfl, rfl, fun b => by cases b <;> rfl,
          Or.inr ⟨(false, sg), rfl, by simp [inSet], ?_⟩⟩
        intro b hb
        cases b
        · exact absurd rfl hb
        · simp [inSet]
      · exact Option.noConfusion h2
    · have h2 : (if sg ∈ s0.creatingValidators then
          some { s0 with creatingValidators := s0.creatingValidators.erase sg } else none) = some s3 := h
      split at h2
      next hmem =>
        obtain rfl := Option.some.inj h2
        refine ⟨rfl, rfl, rfl, rfl, fun b => by cases b <;> rfl,
          Or.inr ⟨(true, sg), rfl, by simp [inSet], ?_⟩⟩
        intro b hb
        cases b
        · simp [inSet]
        · exact absurd rfl hb
      · exact Option.noConfusion h2

/-- `MempoolState::put` preserves the mempool invariant. -/
theorem put_inv {s : MempoolState} {tx : Transaction} {s' : MempoolState} {b : Bool}
    (hInv : MempoolInv s) (h : put s tx = some (s', b)) : MempoolInv s' := by
  obtain ⟨hc, hk⟩ := hInv
  unfold put at h
  split at h
  · simp only [Option.some.injEq, Prod.mk.injEq] at h
    obtain ⟨rfl, rfl⟩ := h
    exact ⟨hc, hk⟩
  next hfresh' =>
    have hfresh : alookup tx.hash s.transactions = none := by
      rcases hlk : alookup tx.hash s.transactions with _ | v
      · rfl
      · rw [hlk] at hfresh'
        simp at hfresh'
    split at h
    next => exact Option.noConfusion h
    next s3 ho =>
      split at h
      next => exact Option.noConfusion h
      next s4 hi =>
        simp only [Option.some.injEq, Prod.mk.injEq] at h
        obtain ⟨rfl, rfl⟩ := h
        obtain ⟨hoT, hoF, hoA, hoS, hoIn, hoOut⟩ := putStakingOut_step ho
        obtain ⟨hiT, hiF, hiA, hiS, hiOut, hiIn⟩ := putStakingIn_step hi
        obtain ⟨hpT, hpF, hpA, _, _, _, _⟩ := putCore_fields s tx
        obtain ⟨hpOutSets, hpInSets⟩ := putCore_sets s tx
        have hcore : coreInv s4 := by
          refine coreInv_congr (hiT.trans hoT) (hiF.trans hoF) (hiA.trans hoA)
            (hiS.trans hoS) (putCore_coreInv hc hfresh)
        have hT4 : s4.transactions = (tx.hash, tx) :: s.transactions := by
          rw [hiT, hoT, hpT]
        have hOut4 : (outKey tx = none ∧ ∀ bb, outSet s4 bb = outSet s bb) ∨
            (∃ k, outKey tx = some k ∧ k.2 ∉ outSet s k.1 ∧
              outSet s4 k.1 = k.2 :: outSet s k.1 ∧ ∀ bb, bb ≠ k.1 → outSet s4 bb = outSet s bb) := by
          rcases hoOut with ⟨hn, hall⟩ | ⟨k, hks, hnotin, hins, hrest⟩
          · exact Or.inl ⟨hn, fun bb => by rw [hiOut bb, hall bb, hpOutSets bb]⟩
          · refine Or.inr ⟨k, hks, ?_, ?_, ?_⟩
            · rw [← hpOutSets k.1]
              exact hnotin
            · rw [hiOut k.1, hins, hpOutSets k.1]
            · intro bb hbb
              rw [hiOut bb, hrest bb hbb, hpOutSets bb]
        have hIn4 : (inKey tx = none ∧ ∀ bb, inSet s4 bb = inSet s bb) ∨
            (∃ k, inKey tx = some k ∧ k.2 ∉ inSet s k.1 ∧
              inSet s4 k.1 = k.2 :: inSet s k.1 ∧ ∀ bb, bb ≠ k.1 → inSet s4 bb = inSet s bb) := by
          rcases hiIn with ⟨hn, hall⟩ | ⟨k, hks, hnotin, hins, hrest⟩
          · exact Or.inl ⟨hn, fun bb => by rw [hall bb, hoIn bb, hpInSets bb]⟩
          · refine Or.inr ⟨k, hks, ?_, ?_, ?_⟩
            · rw [← hpInSets k.1, ← hoIn k.1]
              exact hnotin
            · rw [hins, hoIn k.1, hpInSets k.1]
            · intro bb hbb
              rw [hrest bb hbb, hoIn bb, hpInSets bb]
        obtain ⟨hs1, hs2, hs3, hs4'⟩ := hk
        obtain ⟨hk1, hk2⟩ := stake_insert_preserved outKey outSet hT4 hOut4 hs1 hs2
        obtain ⟨hk3, hk4⟩ := stake_insert_preserved inKey inSet hT4 hIn4 hs3 hs4'
        exact ⟨hcore, hk1, hk2, hk3, hk4⟩

/-! ### Preservation of the invariant by `remove` -/

theorem aerase_map_snd {β : Type} (g : Transaction → β) (k : Nat)
    (l : List (Nat × Transaction)) :
    aerase k (l.map (fun p => (p.1, g p.2))) = (aerase k l).map (fun p => (p.1, g p.2)) := by
  induction l with
  | nil => rfl
  | cons p rest ih =>
    obtain ⟨k0, v⟩ := p
    by_cases hk : k0 = k
    · simp [aerase, hk]
    · simp [aerase, hk, ih]

theorem erase_ne_self_of_mem {x : Nat} {l : List Nat} (hx : x ∈ l) : l.erase x ≠ l := by
  intro he
  have h1 := List.length_erase_of_mem hx
  rw [he] at h1
  have h2 : 0 < l.length := List.length_pos.mpr (List.ne_nil_of_mem hx)
  omega

theorem totalOf_transactions_aerase {s' s : MempoolState} {h0 : Nat}
    (hT : s'.transactions = aerase h0 s.transactions) {h' : Nat} (hne : h' ≠ h0) :
    totalOf s' h' = totalOf s h' := by
  unfold totalOf
  rw [hT, alookup_aerase_ne hne]

theorem senderOf_transactions_aerase {s' s : MempoolState} {h0 : Nat}
    (hT : s'.transactions = aerase h0 s.transactions) {h' : Nat} (hne : h' ≠ h0) :
    senderOf s' h' = senderOf s h' := by
  unfold senderOf
  rw [hT, alookup_aerase_ne hne]

theorem removeCore_fields (s : MempoolState) (h0 : Nat) (tx : Transaction)
    (st : SenderPendingState) :
    (removeCore s h0 tx st).transactions = aerase h0 s.transactions ∧
    (removeCore s h0 tx st).transactionsByFee = aerase h0 s.transactionsByFee ∧
    (removeCore s h0 tx st).transactionsByAge = aerase h0 s.transactionsByAge ∧
    (∀ b, outSet (removeCore s h0 tx st) b = outSet s b) ∧
    (∀ b, inSet (removeCore s h0 tx st) b = inSet s b) := by
  unfold removeCore
  split <;> exact ⟨rfl, rfl, rfl, fun b => by cases b <;> rfl, fun b => by cases b <;> rfl⟩

theorem removeCore_sbs (s : MempoolState) (h0 : Nat) (tx : Transaction)
    (st : SenderPendingState) :
    (removeCore s h0 tx st).stateBySender =
      if (st.txns.erase h0).isEmpty then aerase tx.sender s.stateBySender
      else aupdate tx.sender (fun _ => ⟨st.total - tx.totalValue, st.txns.erase h0⟩) s.stateBySender := by
  unfold removeCore
  split
  next hcond => rfl
  next hcond => rfl

theorem removeCore_coreInv {s : MempoolState} {h0 : Nat} {tx : Transaction}
    {st : SenderPendingState} (hc : coreInv s)
    (htx : alookup h0 s.transactions = some tx)
    (hsb : alookup tx.sender s.stateBySender = some st) :
    coreInv (removeCore s h0 tx st) := by
  obtain ⟨hnd, hsnd, hhash, hfee, hage, htot, hstx, hstnd, hstne, hts⟩ := hc
  obtain ⟨hT, hF, hA, _, _⟩ := removeCore_fields s h0 tx st
  have hS := removeCore_sbs s h0 tx st
  have htxmem : (h0, tx) ∈ s.transactions := alookup_mem htx
  have hstmem : (tx.sender, st) ∈ s.stateBySender := alookup_mem hsb
  have hsend0 : senderOf s h0 = some tx.sender := by
    unfold senderOf
    rw [htx]
    rfl
  have h0in : h0 ∈ st.txns := by
    have := hts (h0, tx) htxmem
    rw [hsb] at this
    exact this
  have hother : ∀ p ∈ s.stateBySender, p.1 ≠ tx.sender → h0 ∉ (p.2).txns := by
    intro p hp hpne hmem
    have := hstx p hp h0 hmem
    rw [hsend0] at this
    exact hpne (Option.some.inj this).symm
  have hTotPres : ∀ p ∈ s.stateBySender, p.1 ≠ tx.sender →
      ((p.2).txns.map (totalOf (removeCore s h0 tx st))) = ((p.2).txns.map (totalOf s)) := by
    intro p hp hpne
    refine List.map_congr_left ?_
    intro h' hh'
    have hne : h' ≠ h0 := by
      intro he
      exact hother p hp hpne (he ▸ hh')
    exact totalOf_transactions_aerase hT hne
  have hErasePres : ∀ h' ∈ st.txns.erase h0,
      totalOf (removeCore s h0 tx st) h' = totalOf s h' ∧
      senderOf (removeCore s h0 tx st) h' = senderOf s h' := by
    intro h' hh'
    have hne : h' ≠ h0 := by
      intro he
      subst he
      exact (hstnd _ hstmem).not_mem_erase hh'
    exact ⟨totalOf_transactions_aerase hT hne, senderOf_transactions_aerase hT hne⟩
  have hupdTotal : st.total - tx.totalValue =
      ((st.txns.erase h0).map (totalOf (removeCore s h0 tx st))).sum := by
    have hperm : st.txns.Perm (h0 :: st.txns.erase h0) := List.perm_cons_erase h0in
    have hsum : ((st.txns).map (totalOf s)).sum =
        totalOf s h0 + ((st.txns.erase h0).map (totalOf s)).sum := by
      have := (hperm.map (totalOf s)).sum_eq
      simpa using this
    have ht0 : totalOf s h0 = tx.totalValue := by
      unfold totalOf
      rw [htx]
    have hmc : ((st.txns.erase h0).map (totalOf (removeCore s h0 tx st))) =
        ((st.txns.erase h0).map (totalOf s)) :=
      List.map_congr_left (fun h' hh' => (hErasePres h' hh').1)
    rw [hmc, htot _ hstmem, hsum, ht0]
    omega
  refine ⟨?_, ?_, ?_, ?_, ?_, ?_, ?_, ?_, ?_, ?_⟩
  · rw [hT]
    exact nodup_map_fst_aerase hnd
  · rw [hS]
    split
    · exact nodup_map_fst_aerase hsnd
    · rw [map_fst_aupdate]
      exact hsnd
  · rw [hT]
    intro p hp
    exact hhash p (mem_aerase_of_mem hp)
  · rw [hF, hT, hfee, aerase_map_snd]
  · rw [hA, hT, hage, aerase_map_snd]
  · rw [hS]
    split
    · intro p hp
      have hpold := mem_aerase_of_mem hp
      have hpne := fst_ne_of_mem_aerase hsnd hp
      rw [htot p hpold]
      congr 1
      exact (hTotPres p hpold hpne).symm
    next hE =>
      intro p hp
      rcases mem_aupdate hp with hold | ⟨hp1, v, hv, hp2⟩
      · by_cases hps : p.1 = tx.sender
        · exfalso
          have hpe : p = (tx.sender, st) := by
            have h1 : alookup p.1 s.stateBySender = some p.2 := alookup_of_mem_nodup hsnd hold
            rw [hps, hsb] at h1
            obtain rfl := Option.some.inj h1
            rw [← hps]
          have h2 : alookup p.1 (aupdate tx.sender (fun _ => ⟨st.total - tx.totalValue, st.txns.erase h0⟩) s.stateBySender) = some p.2 := by
            refine alookup_of_mem_nodup ?_ hp
            rw [map_fst_aupdate]
            exact hsnd
          rw [hps, alookup_aupdate_self _ hsb] at h2
          have h3 : st.txns.erase h0 = st.txns := by
            have h4 := congrArg SenderPendingState.txns (Option.some.inj h2)
            rw [hpe] at h4
            exact h4
          exact erase_ne_self_of_mem h0in h3
        · rw [htot p hold]
          congr 1
          exact (hTotPres p hold hps).symm
      · rw [hsb] at hv
        obtain rfl := Option.some.inj hv
        rw [hp2]
        exact hupdTotal
  · rw [hS]
    split
    next hE =>
      intro p hp h' hh'
      have hpold := mem_aerase_of_mem hp
      have hpne := fst_ne_of_mem_aerase hsnd hp
      have hne : h' ≠ h0 := by
        intro he
        exact hother p hpold hpne (he ▸ hh')
      rw [senderOf_transactions_aerase hT hne]
      exact hstx p hpold h' hh'
    next hE =>
      intro p hp h' hh'
      rcases mem_aupdate hp with hold | ⟨hp1, v, hv, hp2⟩
      · by_cases hps : p.1 = tx.sender
        · exfalso
          have h1 : alookup p.1 s.stateBySender = some p.2 := alookup_of_mem_nodup hsnd hold
          rw [hps, hsb] at h1
          obtain h1' := Option.some.inj h1
          have h2 : alookup p.1 (aupdate tx.sender (fun _ => ⟨st.total - tx.totalValue, st.txns.erase h0⟩) s.stateBySender) = some p.2 := by
            refine alookup_of_mem_nodup ?_ hp
            rw [map_fst_aupdate]
            exact hsnd
          rw [hps, alookup_aupdate_self _ hsb] at h2
          have h3 : st.txns.erase h0 = st.txns := by
            have h4 := congrArg SenderPendingState.txns (Option.some.inj h2)
            rw [← h1'] at h4
            exact h4
          exact erase_ne_self_of_mem h0in h3
        · have hne : h' ≠ h0 := by
            intro he
            exact hother p hold hps (he ▸ hh')
          rw [senderOf_transactions_aerase hT hne]
          exact hstx p hold h' hh'
      · rw [hsb] at hv
        obtain rfl := Option.some.inj hv
        rw [hp2] at hh'
        rw [(hErasePres h' hh').2, hp1]
        exact hstx _ hstmem h' (List.mem_of_mem_erase hh')
  · rw [hS]
    split
    · intro p hp
      exact hstnd p (mem_aerase_of_mem hp)
    · intro p hp
      rcases mem_aupdate hp with hold | ⟨hp1, v, hv, hp2⟩
      · exact hstnd p hold
      · rw [hsb] at hv
        obtain rfl := Option.some.inj hv
        rw [hp2]
        exact (hstnd _ hstmem).erase h0
  · rw [hS]
    split
    next hE =>
      intro p hp
      exact hstne p (mem_aerase_of_mem hp)
    next hE =>
      intro p hp
      rcases mem_aupdate hp with hold | ⟨hp1, v, hv, hp2⟩
      · exact hstne p hold
      · rw [hsb] at hv
        obtain rfl := Option.some.inj hv
        rw [hp2]
        intro he
        rw [List.isEmpty_iff] at hE
        exact hE he
  · intro p hp
    rw [hT] at hp
    have hpold := mem_aerase_of_mem hp
    have hpne := fst_ne_of_mem_aerase hnd hp
    have hps := hts p hpold
    rw [hS]
    by_cases hsame : (p.2).sender = tx.sender
    · rw [hsame, hsb] at hps
      simp only [optHolds_some] at hps
      have hp1ne : p.1 ≠ h0 := hpne
      split
      next hE =>
        exfalso
        rw [List.isEmpty_iff] at hE
        have : p.1 ∈ st.txns.erase h0 := (List.mem_erase_of_ne hp1ne).mpr hps
        rw [hE] at this
        exact List.not_mem_nil _ this
      next hE =>
        rw [hsame, alookup_aupdate_self _ hsb]
        simp only [optHolds_some]
        exact (List.mem_erase_of_ne hp1ne).mpr hps
    · split
      · rw [alookup_aerase_ne hsame]
        exact hps
      · rw [alookup_aupdate_ne hsame]
        exact hps

/-- `MempoolState::remove` preserves the mempool invariant. -/
theorem remove_inv {s : MempoolState} {h0 : Nat} {s' : MempoolState} {r : Option Transaction}
    (hInv : MempoolInv s) (h : remove s h0 = some (s', r)) : MempoolInv s' := by
  obtain ⟨hc, hk⟩ := hInv
  unfold remove at h
  split at h
  · simp only [Option.some.injEq, Prod.mk.injEq] at h
    obtain ⟨rfl, rfl⟩ := h
    exact ⟨hc, hk⟩
  next tx htx =>
    split at h
    next => exact Option.noConfusion h
    next st hsb =>
      split at h
      next => exact Option.noConfusion h
      next s3 ho =>
        split at h
        next => exact Option.noConfusion h
        next s4 hi =>
          simp only [Option.some.injEq, Prod.mk.injEq] at h
          obtain ⟨rfl, rfl⟩ := h
          obtain ⟨hoT, hoF, hoA, hoS, hoIn, hoOut⟩ := removeStakingOut_step ho
          obtain ⟨hiT, hiF, hiA, hiS, hiOut, hiIn⟩ := removeStakingIn_step hi
          obtain ⟨hrT, hrF, hrA, hrOutSets, hrInSets⟩ := removeCore_fields s h0 tx st
          have hhash0 : tx.hash = h0 := (hc.2.2.1) (h0, tx) (alookup_mem htx)
          have hcore : coreInv s4 :=
            coreInv_congr (hiT.trans hoT) (hiF.trans hoF) (hiA.trans hoA) (hiS.trans hoS)
              (removeCore_coreInv hc htx hsb)
          have hT4 : s4.transactions = aerase tx.hash s.transactions := by
            rw [hiT, hoT, hrT, hhash0]
          have htx' : alookup tx.hash s.transactions = some tx := by
            rw [hhash0]
            exact htx
          have hOut4 : (outKey tx = none ∧ ∀ bb, outSet s4 bb = outSet s bb) ∨
              (∃ k, outKey tx = some k ∧ outSet s4 k.1 = (outSet s k.1).erase k.2 ∧
                ∀ bb, bb ≠ k.1 → outSet s4 bb = outSet s bb) := by
            rcases hoOut with ⟨hn, hall⟩ | ⟨k, hks, hers, hrest⟩
            · exact Or.inl ⟨hn, fun bb => by rw [hiOut bb, hall bb, hrOutSets bb]⟩
            · refine Or.inr ⟨k, hks, ?_, ?_⟩
              · rw [hiOut k.1, hers, hrOutSets k.1]
              · intro bb hbb
                rw [hiOut bb, hrest bb hbb, hrOutSets bb]
          have hIn4 : (inKey tx = none ∧ ∀ bb, inSet s4 bb = inSet s bb) ∨
              (∃ k, inKey tx = some k ∧ inSet s4 k.1 = (inSet s k.1).erase k.2 ∧
                ∀ bb, bb ≠ k.1 → inSet s4 bb = inSet s bb) := by
            rcases hiIn with ⟨hn, hall⟩ | ⟨k, hks, hers, hrest⟩
            · exact Or.inl ⟨hn, fun bb => by rw [hall bb, hoIn bb, hrInSets bb]⟩
            · refine Or.inr ⟨k, hks, ?_, ?_⟩
              · rw [hers, hoIn k.1, hrInSets k.1]
              · intro bb hbb
                rw [hrest bb hbb, hoIn bb, hrInSets bb]
          obtain ⟨hs1, hs2, hs3, hs4'⟩ := hk
          obtain ⟨hk1, hk2⟩ := stake_erase_preserved outKey outSet hc.1 htx' hT4 hOut4 hs1 hs2
          obtain ⟨hk3, hk4⟩ := stake_erase_preserved inKey inSet hc.1 htx' hT4 hIn4 hs3 hs4'
          exact ⟨hcore, hk1, hk2, hk3, hk4⟩

theorem putStakingOut_isSome {s0 : MempoolState} {tx : Transaction}
    (hguard : optAll (outKey tx) (fun k => k.2 ∉ outSet s0 k.1)) :
    (putStakingOut s0 tx).isSome := by
  rw [putStakingOut_eq]
  rcases hok : outKey tx with _ | ⟨b1, sg⟩
  · rfl
  · rw [hok] at hguard
    simp only [optAll_some] at hguard
    cases b1
    · simp only
      rw [if_neg (by simpa [outSet] using hguard)]
      rfl
    · simp only
      rw [if_neg (by simpa [outSet] using hguard)]
      rfl

theorem putStakingIn_isSome {s0 : MempoolState} {tx : Transaction}
    (hguard : optAll (inKey tx) (fun k => k.2 ∉ inSet s0 k.1)) :
    (putStakingIn s0 tx).isSome := by
  rw [putStakingIn_eq]
  rcases hok : inKey tx with _ | ⟨b1, sg⟩
  · rfl
  · rw [hok] at hguard
    simp only [optAll_some] at hguard
    cases b1
    · simp only
      rw [if_neg (by simpa [inSet] using hguard)]
      rfl
    · simp only
      rw [if_neg (by simpa [inSet] using hguard)]
      rfl

theorem removeStakingOut_isSome {s0 : MempoolState} {tx : Transaction}
    (hguard : optAll (outKey tx) (fun k => k.2 ∈ outSet s0 k.1)) :
    (removeStakingOut s0 tx).isSome := by
  rw [removeStakingOut_eq]
  rcases hok : outKey tx with _ | ⟨b1, sg⟩
  · rfl
  · rw [hok] at hguard
    simp only [optAll_some] at hguard
    cases b1
    · simp only
      rw [if_pos (by simpa [outSet] using hguard)]
      rfl
    · simp only
      rw [if_pos (by simpa [outSet] using hguard)]
      rfl

theorem removeStakingIn_isSome {s0 : MempoolState} {tx : Transaction}
    (hguard : optAll (inKey tx) (fun k => k.2 ∈ inSet s0 k.1)) :
    (removeStakingIn s0 tx).isSome := by
  rw [removeStakingIn_eq]
  rcases hok : inKey tx with _ | ⟨b1, sg⟩
  · rfl
  · rw [hok] at hguard
    simp only [optAll_some] at hguard
    cases b1
    · simp only
      rw [if_pos (by simpa [inSet] using hguard)]
      rfl
    · simp only
      rw [if_pos (by simpa [inSet] using hguard)]
      rfl

/-- Under the invariant, removing a stored transaction succeeds (none
of the panic paths fires) and drops exactly its entry from
`transactions`. -/
theorem remove_success {s : MempoolState} {h0 : Nat} {tx : Transaction}
    (hInv : MempoolInv s) (htx : alookup h0 s.transactions = some tx) :
    ∃ s', remove s h0 = some (s', some tx) ∧
      s'.transactions = aerase h0 s.transactions := by
  obtain ⟨hc, hk⟩ := hInv
  have htxmem : (h0, tx) ∈ s.transactions := alookup_mem htx
  have hsb' := hc.2.2.2.2.2.2.2.2.2 (h0, tx) htxmem
  rcases hsb : alookup tx.sender s.stateBySender with _ | st
  · rw [hsb] at hsb'
    exact absurd hsb' (by simp)
  · have hout : (removeStakingOut (removeCore s h0 tx st) tx).isSome := by
      refine removeStakingOut_isSome ?_
      have h1 := hk.1 (h0, tx) htxmem
      rcases hok : outKey tx with _ | k
      · simp
      · rw [hok] at h1
        simp only [optAll_some] at h1 ⊢
        rw [(removeCore_fields s h0 tx st).2.2.2.1 k.1]
        exact h1
    rcases ho : removeStakingOut (removeCore s h0 tx st) tx with _ | s3
    · rw [ho] at hout
      exact Bool.noConfusion hout
    · have hin : (removeStakingIn s3 tx).isSome := by
        refine removeStakingIn_isSome ?_
        have h1 := hk.2.2.1 (h0, tx) htxmem
        rcases hok : inKey tx with _ | k
        · simp
        · rw [hok] at h1
          simp only [optAll_some] at h1 ⊢
          rw [(removeStakingOut_step ho).2.2.2.2.1 k.1,
            (removeCore_fields s h0 tx st).2.2.2.2 k.1]
          exact h1
      rcases hi : removeStakingIn s3 tx with _ | s4
      · rw [hi] at hin
        exact Bool.noConfusion hin
      · refine ⟨s4, ?_, ?_⟩
        · simp only [remove, htx, hsb, ho, hi]
        · rw [(removeStakingIn_step hi).1, (removeStakingOut_step ho).1,
            (removeCore_fields s h0 tx st).1]

/-! ### Reachable mempool states and claim C7 -/

/-- Mempool states reachable from the empty mempool by any sequence
of (non-panicking) `put` and `remove` operations. -/
inductive MempoolReachable : MempoolState → Prop where
  | empty : MempoolReachable emptyMempool
  | putStep {s : MempoolState} {tx : Transaction} {s' : MempoolState} {b : Bool} :
      MempoolReachable s → put s tx = some (s', b) → MempoolReachable s'
  | removeStep {s : MempoolState} {h : Nat} {s' : MempoolState} {r : Option Transaction} :
      MempoolReachable s → remove s h = some (s', r) → MempoolReachable s'

theorem mempoolReachable_inv {s : MempoolState} (h : MempoolReachable s) : MempoolInv s := by
  induction h with
  | empty => exact mempoolInv_empty
  | putStep _ hp ih => exact put_inv ih hp
  | removeStep _ hr ih => exact remove_inv ih hr

/-- C7.  For every `MempoolState` reachable by any sequence of `put`
and `remove` operations from the empty mempool, and every sender
address present in `state_by_sender`, the recorded `total` equals the
sum of `total_value` over the transactions whose hashes are in that
sender's `txns` set; `put` and `remove` preserve this invariant by
construction of reachability (`put_inv` / `remove_inv`). -/
theorem mempool_sender_totals {s : MempoolState} (h : MempoolReachable s) :
    ∀ p ∈ s.stateBySender, (p.2).total = (((p.2).txns).map (totalOf s)).sum :=
  (mempoolReachable_inv h).1.2.2.2.2.2.1

/-! ### Concrete mempool states for the witnesses and scenario S5 -/

def txFee10 : Transaction := ⟨1, 1, .basic, .basic, 5, 10, 100, 0, .unstake 0, .other⟩

def txFee30 : Transaction := ⟨2, 2, .basic, .basic, 7, 30, 100, 0, .unstake 0, .other⟩

def txFee20 : Transaction := ⟨3, 3, .basic, .basic, 9, 20, 100, 0, .unstake 0, .other⟩

def mpState1 : MempoolState := ((put emptyMempool txFee10).getD (emptyMempool, false)).1

def mpState2 : MempoolState := ((put mpState1 txFee30).getD (emptyMempool, false)).1

def mpState3 : MempoolState := ((put mpState2 txFee20).getD (emptyMempool, false)).1

theorem mpState3_reachable : MempoolReachable mpState3 :=
  @MempoolReachable.putStep mpState2 txFee20 mpState3 true
    (@MempoolReachable.putStep mpState1 txFee30 mpState2 true
      (@MempoolReachable.putStep emptyMempool txFee10 mpState1 true
        MempoolReachable.empty (by decide))
      (by decide))
    (by decide)

/-- Witness for C7: in the three-transaction mempool of scenario S5,
the sender-3 record's `total` (9) is the sum of the `total_value`s of
its recorded transactions. -/
theorem mempool_sender_totals_witness :
    (⟨9, [3]⟩ : SenderPendingState).total = (([3] : List Nat).map (totalOf mpState3)).sum :=
  mempool_sender_totals mpState3_reachable (3, ⟨9, [3]⟩) (by decide)

/-! ### Claim C10: removing an absent hash -/

/-- C10.  For every mempool state and every hash not present in its
`transactions` map, `remove` returns `None` and leaves the entire
state unchanged (the `self.transactions.remove(tx_hash)?` early
return at mempool.rs:597 fires before any index is touched). -/
theorem mempool_remove_absent (s : MempoolState) (h : Nat)
    (habs : alookup h s.transactions = none) :
    remove s h = some (s, none) := by
  unfold remove
  rw [habs]

/-- Witness for C10 at a concrete input. -/
theorem mempool_remove_absent_witness : remove mpState3 42 = some (mpState3, none) :=
  mempool_remove_absent mpState3 42 (by decide)

/-! ### Claim C9: put followed by remove restores the state -/

attribute [ext] MempoolState

theorem put_success {s : MempoolState} {tx : Transaction}
    (hfresh : alookup tx.hash s.transactions = none)
    (hout : optAll (outKey tx) (fun k => k.2 ∉ outSet s k.1))
    (hin : optAll (inKey tx) (fun k => k.2 ∉ inSet s k.1)) :
    ∃ s4, put s tx = some (s4, true) := by
  have ho : (putStakingOut (putCore s tx) tx).isSome := by
    refine putStakingOut_isSome ?_
    rcases hok : outKey tx with _ | k
    · simp
    · rw [hok] at hout
      simp only [optAll_some] at hout ⊢
      rw [(putCore_sets s tx).1 k.1]
      exact hout
  rcases hps : putStakingOut (putCore s tx) tx with _ | s3
  · rw [hps] at ho
    exact Bool.noConfusion ho
  · have hi : (putStakingIn s3 tx).isSome := by
      refine putStakingIn_isSome ?_
      rcases hok : inKey tx with _ | k
      · simp
      · rw [hok] at hin
        simp only [optAll_some] at hin ⊢
        rw [(putStakingOut_step hps).2.2.2.2.1 k.1, (putCore_sets s tx).2 k.1]
        exact hin
    rcases hpi : putStakingIn s3 tx with _ | s4
    · rw [hpi] at hi
      exact Bool.noConfusion hi
    · exact ⟨s4, by simp [put, hfresh, hps, hpi]⟩

theorem put_true_fields {s : MempoolState} {tx : Transaction} {s4 : MempoolState}
    (h : put s tx = some (s4, true)) :
    s4.transactions = (tx.hash, tx) :: s.transactions ∧
    s4.transactionsByFee = (tx.hash, tx.feePerByte) :: s.transactionsByFee ∧
    s4.transactionsByAge = (tx.hash, tx.validityStartHeight) :: s.transactionsByAge ∧
    s4.stateBySender = (putCore s tx).stateBySender ∧
    ((outKey tx = none ∧ ∀ b, outSet s4 b = outSet s b) ∨
      (∃ k, outKey tx = some k ∧ k.2 ∉ outSet s k.1 ∧
        outSet s4 k.1 = k.2 :: outSet s k.1 ∧ ∀ b, b ≠ k.1 → outSet s4 b = outSet s b)) ∧
    ((inKey tx = none ∧ ∀ b, inSet s4 b = inSet s b) ∨
      (∃ k, inKey tx = some k ∧ k.2 ∉ inSet s k.1 ∧
        inSet s4 k.1 = k.2 :: inSet s k.1 ∧ ∀ b, b ≠ k.1 → inSet s4 b = inSet s b)) := by
  unfold put at h
  split at h
  · simp only [Option.some.injEq, Prod.mk.injEq] at h
    exact absurd h.2 (by simp)
  next hfresh' =>
    split at h
    next => exact Option.noConfusion h
    next s3 ho =>
      split at h
      next => exact Option.noConfusion h
      next s4' hi =>
        simp only [Option.some.injEq, Prod.mk.injEq] at h
        obtain ⟨rfl, _⟩ := h
        obtain ⟨hoT, hoF, hoA, hoS, hoIn, hoOut⟩ := putStakingOut_step ho
        obtain ⟨hiT, hiF, hiA, hiS, hiOut, hiIn⟩ := putStakingIn_step hi
        obtain ⟨hpT, hpF, hpA, _, _, _, _⟩ := putCore_fields s tx
        obtain ⟨hpOutSets, hpInSets⟩ := putCore_sets s tx
        refine ⟨by rw [hiT, hoT, hpT], by rw [hiF, hoF, hpF], by rw [hiA, hoA, hpA],
          by rw [hiS, hoS], ?_, ?_⟩
        · rcases hoOut with ⟨hn, hall⟩ | ⟨k, hks, hnotin, hins, hrest⟩
          · exact Or.inl ⟨hn, fun bb => by rw [hiOut bb, hall bb, hpOutSets bb]⟩
          · refine Or.inr ⟨k, hks, ?_, ?_, ?_⟩
            · rw [← hpOutSets k.1]
              exact hnotin
            · rw [hiOut k.1, hins, hpOutSets k.1]
            · intro bb hbb
              rw [hiOut bb, hrest bb hbb, hpOutSets bb]
        · rcases hiIn with ⟨hn, hall⟩ | ⟨k, hks, hnotin, hins, hrest⟩
          · exact Or.inl ⟨hn, fun bb => by rw [hall bb, hoIn bb, hpInSets bb]⟩
          · refine Or.inr ⟨k, hks, ?_, ?_, ?_⟩
            · rw [← hpInSets k.1, ← hoIn k.1]
              exact hnotin
            · rw [hins, hoIn k.1, hpInSets k.1]
            · intro bb hbb
              rw [hrest bb hbb, hoIn bb, hpInSets bb]

theorem remove_found_spec {s : MempoolState} {h0 : Nat} {tx : Transaction}
    {st : SenderPendingState} (htx : alookup h0 s.transactions = some tx)
    (hsb : alookup tx.sender s.stateBySender = some st)
    {s' : MempoolState} {r : Option Transaction} (h : remove s h0 = some (s', r)) :
    r = some tx ∧
    s'.transactions = aerase h0 s.transactions ∧
    s'.transactionsByFee = aerase h0 s.transactionsByFee ∧
    s'.transactionsByAge = aerase h0 s.transactionsByAge ∧
    s'.stateBySender = (removeCore s h0 tx st).stateBySender ∧
    ((outKey tx = none ∧ ∀ b, outSet s' b = outSet s b) ∨
      (∃ k, outKey tx = some k ∧ outSet s' k.1 = (outSet s k.1).erase k.2 ∧
        ∀ b, b ≠ k.1 → outSet s' b = outSet s b)) ∧
    ((inKey tx = none ∧ ∀ b, inSet s' b = inSet s b) ∨
      (∃ k, inKey tx = some k ∧ inSet s' k.1 = (inSet s k.1).erase k.2 ∧
        ∀ b, b ≠ k.1 → inSet s' b = inSet s b)) := by
  unfold remove at h
  rw [htx] at h
  have h2 : (match alookup tx.sender s.stateBySender with
      | none => none
      | some st =>
        match removeStakingOut (removeCore s h0 tx st) tx with
        | none => none
        | some s3 =>
          match removeStakingIn s3 tx with
          | none => none
          | some s4 => some (s4, some tx)) = some (s', r) := h
  rw [hsb] at h2
  have h3 : (match removeStakingOut (removeCore s h0 tx st) tx with
      | none => none
      | some s3 =>
        match removeStakingIn s3 tx with
        | none => none
        | some s4 => some (s4, some tx)) = some (s', r) := h2
  split at h3
  next => exact Option.noConfusion h3
  next s3 ho =>
    split at h3
    next => exact Option.noConfusion h3
    next s4 hi =>
      simp only [Option.some.injEq, Prod.mk.injEq] at h3
      obtain ⟨rfl, rfl⟩ := h3
      obtain ⟨hoT, hoF, hoA, hoS, hoIn, hoOut⟩ := removeStakingOut_step ho
      obtain ⟨hiT, hiF, hiA, hiS, hiOut, hiIn⟩ := removeStakingIn_step hi
      obtain ⟨hrT, hrF, hrA, hrOutSets, hrInSets⟩ := removeCore_fields s h0 tx st
      refine ⟨rfl, by rw [hiT, hoT, hrT], by rw [hiF, hoF, hrF], by rw [hiA, hoA, hrA],
        by rw [hiS, hoS], ?_, ?_⟩
      · rcases hoOut with ⟨hn, hall⟩ | ⟨k, hks, hers, hrest⟩
        · exact Or.inl ⟨hn, fun bb => by rw [hiOut bb, hall bb, hrOutSets bb]⟩
        · refine Or.inr ⟨k, hks, ?_, ?_⟩
          · rw [hiOut k.1, hers, hrOutSets k.1]
          · intro bb hbb
            rw [hiOut bb, hrest bb hbb, hrOutSets bb]
      · rcases hiIn with ⟨hn, hall⟩ | ⟨k, hks, hers, hrest⟩
        · exact Or.inl ⟨hn, fun bb => by rw [hall bb, hoIn bb, hrInSets bb]⟩
        · refine Or.inr ⟨k, hks, ?_, ?_⟩
          · rw [hers, hoIn k.1, hrInSets k.1]
          · intro bb hbb
            rw [hrest bb hbb, hoIn bb, hrInSets bb]

/-- Combining the put-side and remove-side staking-set characterizations
for the same transaction: the removal erases exactly the element the
insertion added, so every staking set returns to its original value. -/
theorem setRestore {s s4 s' : MempoolState} {tx : Transaction}
    (key : Transaction → Option (Bool × Nat)) (set : MempoolState → Bool → List Nat)
    (hput : (key tx = none ∧ ∀ b, set s4 b = set s b) ∨
      (∃ k, key tx = some k ∧ k.2 ∉ set s k.1 ∧ set s4 k.1 = k.2 :: set s k.1 ∧
        ∀ b, b ≠ k.1 → set s4 b = set s b))
    (hrem : (key tx = none ∧ ∀ b, set s' b = set s4 b) ∨
      (∃ k, key tx = some k ∧ set s' k.1 = (set s4 k.1).erase k.2 ∧
        ∀ b, b ≠ k.1 → set s' b = set s4 b)) :
    ∀ b, set s' b = set s b := by
  intro b
  rcases hput with ⟨hn, hall⟩ | ⟨k, hks, hnotin, hins, hrest⟩
  · rcases hrem with ⟨_, hall'⟩ | ⟨k, hks', _, _⟩
    · rw [hall' b, hall b]
    · rw [hn] at hks'
      exact Option.noConfusion hks'
  · rcases hrem with ⟨hn', _⟩ | ⟨k', hks', hers, hrest'⟩
    · rw [hks] at hn'
      exact Option.noConfusion hn'
    · have hkk : k' = k := by
        rw [hks] at hks'
        exact (Option.some.inj hks').symm
      rw [hkk] at hers hrest'
      by_cases hb : b = k.1
      · subst hb
        rw [hers, hins, List.erase_cons_head]
      · rw [hrest' b hb, hrest b hb]

/-- C9: `MempoolState::put` followed by `MempoolState::remove` of the same
hash restores the state exactly. For every well-formed mempool state `s`
(the invariant all reachable states satisfy) and transaction `tx` whose
hash is not stored and whose staking signers, if any, are absent from the
corresponding uniqueness sets, `put s tx` succeeds and `remove` of
`tx.hash` on the result returns the removed transaction and a state equal
to `s` in every index: `transactions`, `transactions_by_fee`,
`transactions_by_age`, `state_by_sender` and the four staking sets. -/
theorem mempool_put_remove_roundtrip {s : MempoolState} {tx : Transaction}
    (hInv : MempoolInv s)
    (hfresh : alookup tx.hash s.transactions = none)
    (hout : optAll (outKey tx) (fun k => k.2 ∉ outSet s k.1))
    (hin : optAll (inKey tx) (fun k => k.2 ∉ inSet s k.1)) :
    (put s tx).bind (fun p => remove p.1 tx.hash) = some (s, some tx) := by
  obtain ⟨s4, hput⟩ := put_success hfresh hout hin
  obtain ⟨hT4, hF4, hA4, hS4, hOut4, hIn4⟩ := put_true_fields hput
  have hInv4 : MempoolInv s4 := put_inv hInv hput
  have htx4 : alookup tx.hash s4.transactions = some tx := by
    rw [hT4, alookup_cons, if_pos rfl]
  obtain ⟨s', hrem, _⟩ := remove_success hInv4 htx4
  rw [hput]
  show remove s4 tx.hash = some (s, some tx)
  rw [hrem]
  rcases hsb : alookup tx.sender s.stateBySender with _ | st0
  · have hsbs4 : s4.stateBySender = (tx.sender, ⟨tx.totalValue, [tx.hash]⟩) :: s.stateBySender := by
      rw [hS4, putCore_sbs s tx, hsb]
    have hsb4 : alookup tx.sender s4.stateBySender = some ⟨tx.totalValue, [tx.hash]⟩ := by
      rw [hsbs4, alookup_cons, if_pos rfl]
    obtain ⟨_, hTr, hFr, hAr, hSr, hOutr, hInr⟩ := remove_found_spec htx4 hsb4 hrem
    have hOutAll : ∀ b, outSet s' b = outSet s b := setRestore outKey outSet hOut4 hOutr
    have hInAll : ∀ b, inSet s' b = inSet s b := setRestore inKey inSet hIn4 hInr
    have hSfin : s'.stateBySender = s.stateBySender := by
      rw [hSr, removeCore_sbs]
      rw [if_pos (by simp [List.erase_cons_head])]
      rw [hsbs4, aerase_cons, if_pos rfl]
    have hfin : s' = s := by
      ext1
      · rw [hTr, hT4, aerase_cons, if_pos rfl]
      · rw [hFr, hF4, aerase_cons, if_pos rfl]
      · rw [hAr, hA4, aerase_cons, if_pos rfl]
      · exact hSfin
      · have h1 := hOutAll true
        simpa [outSet] using h1
      · have h1 := hOutAll false
        simpa [outSet] using h1
      · have h1 := hInAll true
        simpa [inSet] using h1
      · have h1 := hInAll false
        simpa [inSet] using h1
    rw [hfin]
  · have hmem0 : (tx.sender, st0) ∈ s.stateBySender := alookup_mem hsb
    have hnotin : tx.hash ∉ st0.txns :=
      fresh_not_in_sender_txns hInv.1.2.2.2.2.2.2.1 hfresh (tx.sender, st0) hmem0
    have hstne : st0.txns ≠ [] := hInv.1.2.2.2.2.2.2.2.2.1 (tx.sender, st0) hmem0
    have hsins : sinsert tx.hash st0.txns = tx.hash :: st0.txns := sinsert_of_not_mem hnotin
    have hsbs4 : s4.stateBySender =
        aupdate tx.sender (fun st => ⟨st.total + tx.totalValue, sinsert tx.hash st.txns⟩)
          s.stateBySender := by
      rw [hS4, putCore_sbs s tx, hsb]
    have hsb4 : alookup tx.sender s4.stateBySender =
        some ⟨st0.total + tx.totalValue, sinsert tx.hash st0.txns⟩ := by
      rw [hsbs4]
      exact alookup_aupdate_self _ hsb
    obtain ⟨_, hTr, hFr, hAr, hSr, hOutr, hInr⟩ := remove_found_spec htx4 hsb4 hrem
    have hOutAll : ∀ b, outSet s' b = outSet s b := setRestore outKey outSet hOut4 hOutr
    have hInAll : ∀ b, inSet s' b = inSet s b := setRestore inKey inSet hIn4 hInr
    have hSfin : s'.stateBySender = s.stateBySender := by
      rw [hSr, removeCore_sbs]
      simp only [hsins, List.erase_cons_head]
      rw [if_neg (by simpa [List.isEmpty_iff] using hstne)]
      have hval : (⟨st0.total + tx.totalValue - tx.totalValue, st0.txns⟩ :
          SenderPendingState) = st0 := by
        rw [Nat.add_sub_cancel]
      simp only [hval]
      rw [hsbs4]
      exact aupdate_aupdate_restore _ hsb
    have hfin : s' = s := by
      ext1
      · rw [hTr, hT4, aerase_cons, if_pos rfl]
      · rw [hFr, hF4, aerase_cons, if_pos rfl]
      · rw [hAr, hA4, aerase_cons, if_pos rfl]
      · exact hSfin
      · have h1 := hOutAll true
        simpa [outSet] using h1
      · have h1 := hOutAll false
        simpa [outSet] using h1
      · have h1 := hInAll true
        simpa [inSet] using h1
      · have h1 := hInAll false
        simpa [inSet] using h1
    rw [hfin]

/-- A staking transaction used to exercise the roundtrip at a concrete
state: it touches `outgoing_validators` (signer 8) and `creating_stakers`
(signer 6). -/
def txStake9 : Transaction := ⟨9, 4, .staking, .staking, 5, 1, 10, 0, .deleteValidator 8, .createStaker 6⟩

theorem mempool_put_remove_roundtrip_witness :
    MempoolInv mpState3 ∧ alookup txStake9.hash mpState3.transactions = none ∧
    (put mpState3 txStake9).bind (fun p => remove p.1 txStake9.hash) =
      some (mpState3, some txStake9) :=
  ⟨by decide, by decide,
    mempool_put_remove_roundtrip (by decide) (by decide) (by decide) (by decide)⟩

/-! ### Claim C8: get_transactions_for_block fee ordering -/

theorem peekFeeEntry_none {l : List (Nat × ℚ)} (h : peekFeeEntry l = none) : l = [] := by
  cases l with
  | nil => rfl
  | cons p rest =>
    obtain ⟨h1, q1⟩ := p
    simp only [peekFeeEntry] at h
    rcases hp : peekFeeEntry rest with _ | p'
    · rw [hp] at h
      exact Option.noConfusion h
    · obtain ⟨h2, q2⟩ := p'
      simp only [hp] at h
      split at h <;> exact Option.noConfusion h

/-- `KeyedPriorityQueue::peek` as modelled by `peekFeeEntry` returns an
entry of the list carrying the maximal fee. -/
theorem peekFeeEntry_mem_max {l : List (Nat × ℚ)} {h0 : Nat} {q : ℚ}
    (h : peekFeeEntry l = some (h0, q)) : (h0, q) ∈ l ∧ ∀ p ∈ l, p.2 ≤ q := by
  induction l generalizing h0 q with
  | nil => exact Option.noConfusion h
  | cons hd rest ih =>
    obtain ⟨h1, q1⟩ := hd
    simp only [peekFeeEntry] at h
    rcases hp : peekFeeEntry rest with _ | p'
    · simp only [hp] at h
      injection h with h'
      injection h' with ha hb
      subst ha
      subst hb
      have hrest : rest = [] := peekFeeEntry_none hp
      subst hrest
      refine ⟨List.mem_cons_self _ _, ?_⟩
      intro p hpm
      rcases List.mem_cons.mp hpm with rfl | hm
      · exact le_refl _
      · exact absurd hm (List.not_mem_nil _)
    · obtain ⟨h2, q2⟩ := p'
      simp only [hp] at h
      obtain ⟨hmem2, hmax2⟩ := ih hp
      by_cases hle : q2 ≤ q1
      · rw [if_pos hle] at h
        injection h with h'
        injection h' with ha hb
        subst ha
        subst hb
        refine ⟨List.mem_cons_self _ _, ?_⟩
        intro p hpm
        rcases List.mem_cons.mp hpm with rfl | hm
        · exact le_refl _
        · exact le_trans (hmax2 p hm) hle
      · rw [if_neg hle] at h
        injection h with h'
        injection h' with ha hb
        subst ha
        subst hb
        refine ⟨List.mem_cons_of_mem _ hmem2, ?_⟩
        intro p hpm
        rcases List.mem_cons.mp hpm with rfl | hm
        · exact le_of_lt (not_le.mp hle)
        · exact hmax2 p hm

theorem aerase_length_lt {β : Type} {k : Nat} {l : List (Nat × β)} {v : β}
    (h : alookup k l = some v) : (aerase k l).length < l.length := by
  induction l with
  | nil => exact Option.noConfusion h
  | cons p rest ih =>
    obtain ⟨k1, v1⟩ := p
    by_cases hk : k1 = k
    · simp only [aerase_cons, if_pos hk, List.length_cons]
      exact Nat.lt_succ_self _
    · rw [alookup_cons, if_neg hk] at h
      simp only [aerase_cons, if_neg hk, List.length_cons]
      exact Nat.succ_lt_succ (ih h)

/-- The loop of `get_transactions_for_block`, under the mempool
invariant: it terminates without panicking, collects transactions in
descending fee-per-byte order whose sizes (on top of the size already
consumed) stay within `max_bytes`, every collected transaction comes
from the fee index, the remaining fee entries all come from the
original fee index and are dominated by every collected fee (the
collected transactions form a prefix of the fee order), the loop
stops greedily (the remaining mempool is empty or its top-fee
transaction would overflow `max_bytes`), and exactly the collected
hashes disappear from `transactions`. -/
theorem gtfbLoop_spec (maxBytes : Nat) :
    ∀ (fuel : Nat) (s : MempoolState) (size : Nat) (acc : List Transaction),
      MempoolInv s → s.transactions.length < fuel → size ≤ maxBytes →
      ∃ txs s', gtfbLoop maxBytes fuel size acc s = some (acc.reverse ++ txs, s') ∧
        MempoolInv s' ∧
        List.Chain' (fun a b => b.feePerByte ≤ a.feePerByte) txs ∧
        size + (txs.map Transaction.serializedSize).sum ≤ maxBytes ∧
        (∀ t ∈ txs, (t.hash, t.feePerByte) ∈ s.transactionsByFee) ∧
        (∀ p ∈ s'.transactionsByFee, p ∈ s.transactionsByFee) ∧
        (∀ t ∈ txs, ∀ p ∈ s'.transactionsByFee, p.2 ≤ t.feePerByte) ∧
        (peekFeeEntry s'.transactionsByFee = none ∨
          ∃ hn qn txn, peekFeeEntry s'.transactionsByFee = some (hn, qn) ∧
            alookup hn s'.transactions = some txn ∧
            maxBytes < size + (txs.map Transaction.serializedSize).sum + txn.serializedSize) ∧
        (∀ h, alookup h s'.transactions =
          if h ∈ txs.map Transaction.hash then none else alookup h s.transactions) := by
  intro fuel
  induction fuel with
  | zero =>
    intro s size acc _ hlen _
    exact absurd hlen (Nat.not_lt_zero _)
  | succ fuel ih =>
    intro s size acc hInv hlen hsize
    rcases hpeek : peekFeeEntry s.transactionsByFee with _ | ⟨h0, q⟩
    · refine ⟨[], s, ?_, hInv, List.chain'_nil, by simpa using hsize, by simp,
        fun p hp => hp, by simp, Or.inl hpeek, ?_⟩
      · simp only [gtfbLoop, hpeek, List.append_nil]
      · intro h
        simp
    · obtain ⟨hmem, hmax⟩ := peekFeeEntry_mem_max hpeek
      have hmemF : (h0, q) ∈ s.transactionsByFee := hmem
      have hc4 := hInv.1.2.2.2.1
      rw [hc4] at hmem
      obtain ⟨⟨hh, tx⟩, hp, hpe⟩ := List.mem_map.mp hmem
      have hpe' : (hh, tx.feePerByte) = (h0, q) := hpe
      injection hpe' with ha hp2
      have htxl : alookup h0 s.transactions = some tx :=
        ha ▸ alookup_of_mem_nodup hInv.1.1 hp
      have hhash : tx.hash = h0 := ha ▸ hInv.1.2.2.1 (hh, tx) hp
      by_cases hsz : maxBytes < size + tx.serializedSize
      · refine ⟨[], s, ?_, hInv, List.chain'_nil, by simpa using hsize, by simp,
          fun p hp => hp, by simp, Or.inr ⟨h0, q, tx, hpeek, htxl, hsz⟩, ?_⟩
        · simp only [gtfbLoop, hpeek, htxl, if_pos hsz, List.append_nil]
        · intro h
          simp
      · obtain ⟨s1, hrem, hT1⟩ := remove_success hInv htxl
        have hInv1 : MempoolInv s1 := remove_inv hInv hrem
        have hlen1 : s1.transactions.length < fuel := by
          rw [hT1]
          exact Nat.lt_of_lt_of_le (aerase_length_lt htxl) (Nat.lt_succ_iff.mp hlen)
        have hsize1 : size + tx.serializedSize ≤ maxBytes := Nat.not_lt.mp hsz
        have hsbsome : ∃ st, alookup tx.sender s.stateBySender = some st := by
          have h10 := hInv.1.2.2.2.2.2.2.2.2.2 (h0, tx) (alookup_mem htxl)
          rcases hq : alookup tx.sender s.stateBySender with _ | st
          · rw [hq] at h10
            exact absurd h10 (by simp)
          · exact ⟨st, rfl⟩
        obtain ⟨st, hsb⟩ := hsbsome
        have hF1 : s1.transactionsByFee = aerase h0 s.transactionsByFee :=
          (remove_found_spec htxl hsb hrem).2.2.1
        obtain ⟨txs, s', heq, hInv', hchain, hsum, hmemL, hM, hP, hG, hrm⟩ :=
          ih s1 (size + tx.serializedSize) (tx :: acc) hInv1 hlen1 hsize1
        refine ⟨tx :: txs, s', ?_, hInv', ?_, ?_, ?_, ?_, ?_, ?_, ?_⟩
        · simp only [gtfbLoop, hpeek, htxl, if_neg hsz, hrem]
          rw [heq, List.reverse_cons, List.append_assoc]
          rfl
        · rw [List.chain'_cons']
          refine ⟨?_, hchain⟩
          intro b hb
          have hbmem : b ∈ txs := List.mem_of_mem_head? hb
          have hbF := hmemL b hbmem
          rw [hF1] at hbF
          have hble : b.feePerByte ≤ q := hmax _ (mem_aerase_of_mem hbF)
          rw [← hp2] at hble
          exact hble
        · simp only [List.map_cons, List.sum_cons]
          rw [← Nat.add_assoc]
          exact hsum
        · intro t ht
          rcases List.mem_cons.mp ht with rfl | ht2
          · rw [hhash, hp2]
            exact hmemF
          · have hbF := hmemL t ht2
            rw [hF1] at hbF
            exact mem_aerase_of_mem hbF
        · intro pp hpp
          have h2 := hM pp hpp
          rw [hF1] at h2
          exact mem_aerase_of_mem h2
        · intro t ht pp hpp
          rcases List.mem_cons.mp ht with rfl | ht2
          · have h2 := hM pp hpp
            rw [hF1] at h2
            have h3 : pp.2 ≤ q := hmax _ (mem_aerase_of_mem h2)
            rw [← hp2] at h3
            exact h3
          · exact hP t ht2 pp hpp
        · rcases hG with hnone | ⟨hn, qn, txn, hpk, htl, hlt⟩
          · exact Or.inl hnone
          · refine Or.inr ⟨hn, qn, txn, hpk, htl, ?_⟩
            simp only [List.map_cons, List.sum_cons]
            rw [← Nat.add_assoc]
            exact hlt
        · intro h
          have h1 := hrm h
          rw [hT1] at h1
          by_cases hh0 : h = h0
          · rw [hh0] at h1 ⊢
            rw [h1, List.map_cons, hhash, if_pos (List.mem_cons_self _ _)]
            by_cases hmem2 : h0 ∈ txs.map Transaction.hash
            · rw [if_pos hmem2]
            · rw [if_neg hmem2]
              exact alookup_aerase_self h0 hInv.1.1
          · rw [h1, List.map_cons, hhash]
            by_cases hmem2 : h ∈ txs.map Transaction.hash
            · rw [if_pos hmem2, if_pos (List.mem_cons_of_mem _ hmem2)]
            · have hnot : h ∉ h0 :: txs.map Transaction.hash := by
                intro hcon
                rcases List.mem_cons.mp hcon with he | hm
                · exact hh0 he
                · exact hmem2 hm
              rw [if_neg hmem2, if_neg hnot, alookup_aerase_ne hh0]

/-- C8: for every well-formed mempool state (the invariant all reachable
states satisfy) and every `max_bytes`,
`Mempool::get_transactions_for_block` returns without panicking a list of
transactions that is a greedy prefix of the fee-ordered mempool: the
returned transactions are in descending fee-per-byte order, their
cumulative `serialized_size` does not exceed `max_bytes`, every returned
fee-per-byte dominates every fee-per-byte still in the mempool (so the
returned set is an upward-closed prefix of the fee order — no higher-fee
transaction is skipped), the iteration is greedy (afterwards the mempool
is empty or its top-fee transaction no longer fits in `max_bytes`), and
exactly the returned transactions are removed from `transactions`;
concretely, on the S5 state (fee-per-byte 10, 30, 20 with hashes 1, 2,
3, each of size 100), `get_transactions_for_block 250` returns the
fee-30 then the fee-20 transaction and only the fee-10 transaction
remains. -/
theorem mempool_block_txs_fee_order :
    (∀ (s : MempoolState), MempoolInv s → ∀ (maxBytes : Nat),
      ∃ txs s', getTransactionsForBlock s maxBytes = some (txs, s') ∧
        List.Chain' (fun a b => b.feePerByte ≤ a.feePerByte) txs ∧
        (txs.map Transaction.serializedSize).sum ≤ maxBytes ∧
        (∀ t ∈ txs, ∀ p ∈ s'.transactionsByFee, p.2 ≤ t.feePerByte) ∧
        (peekFeeEntry s'.transactionsByFee = none ∨
          ∃ hn qn txn, peekFeeEntry s'.transactionsByFee = some (hn, qn) ∧
            alookup hn s'.transactions = some txn ∧
            maxBytes < (txs.map Transaction.serializedSize).sum + txn.serializedSize) ∧
        ∀ h, alookup h s'.transactions =
          if h ∈ txs.map Transaction.hash then none else alookup h s.transactions) ∧
    (getTransactionsForBlock mpState3 250).map
        (fun p => (p.1.map Transaction.hash, p.2.transactions.map Prod.fst)) =
      some ([2, 3], [1]) := by
  constructor
  · intro s hInv maxBytes
    unfold getTransactionsForBlock
    by_cases hemp : s.transactions.isEmpty
    · rw [if_pos hemp]
      refine ⟨[], s, rfl, List.chain'_nil, by simp, by simp, ?_, ?_⟩
      · refine Or.inl ?_
        rw [hInv.1.2.2.2.1, List.isEmpty_iff.mp hemp]
        rfl
      · intro h
        simp
    · rw [if_neg hemp]
      obtain ⟨txs, s', heq, _, hchain, hsum, _, _, hP, hG, hrm⟩ :=
        gtfbLoop_spec maxBytes (s.transactions.length + 1) s 0 [] hInv
          (Nat.lt_succ_self _) (Nat.zero_le _)
      refine ⟨txs, s', ?_, hchain, by simpa using hsum, hP, ?_, hrm⟩
      · simpa using heq
      · rcases hG with hnone | ⟨hn, qn, txn, hpk, htl, hlt⟩
        · exact Or.inl hnone
        · exact Or.inr ⟨hn, qn, txn, hpk, htl, by simpa using hlt⟩
  · decide

theorem mempool_block_txs_fee_order_witness :
    MempoolInv mpState3 ∧
    ∃ txs s', getTransactionsForBlock mpState3 250 = some (txs, s') ∧
      List.Chain' (fun a b => b.feePerByte ≤ a.feePerByte) txs ∧
      (txs.map Transaction.serializedSize).sum ≤ 250 ∧
      (∀ t ∈ txs, ∀ p ∈ s'.transactionsByFee, p.2 ≤ t.feePerByte) ∧
      (peekFeeEntry s'.transactionsByFee = none ∨
        ∃ hn qn txn, peekFeeEntry s'.transactionsByFee = some (hn, qn) ∧
          alookup hn s'.transactions = some txn ∧
          250 < (txs.map Transaction.serializedSize).sum + txn.serializedSize) ∧
      ∀ h, alookup h s'.transactions =
        if h ∈ txs.map Transaction.hash then none else alookup h mpState3.transactions :=
  ⟨by decide, mempool_block_txs_fee_order.1 mpState3 (by decide) 250⟩
